import Mathlib

/-!
Shallow embedding of the distributed DDoS anomaly detector
(`src/detector_enhanced.c`, with the shared data model of `src/detector.h`),
together with theorems settling the specification claims about it.

Modelling conventions:
* C `double` values are modelled as real numbers (`ℝ`); C `int` / `long`
  values as `ℤ` (no arithmetic here approaches the 32/64-bit boundaries).
* The `IpStat stats[MAX_UNIQUE_IPS]` array with its live prefix of
  `stat_count` entries is modelled as a `List IpStat`; `stat_count` is the
  list length.  The `history[CUSUM_WINDOW]` array of `CusumState` is
  likewise a list of the `sample_count` live samples, oldest first.
* C strings (`char[32]` buffers) are modelled as `String`.  The shard
  parser accepts source addresses via `%31[^,]`, so every parsed
  `src_ip` has 1..31 characters and the `strncpy(dst, src, 31)` copies
  performed by the detector never truncate; string assignment is
  therefore modelled as plain assignment.
* Wall-clock inputs (`get_time_ms`, `time(NULL)`) are explicit parameters
  of the embedded worker, since the C functions read them from the
  environment.
-/

namespace DDoSDetect

/-- `#define MAX_FLOWS 100000` from `detector.h`. -/
def MAX_FLOWS : Nat := 100000

/-- `#define MAX_UNIQUE_IPS 4096` from `detector.h`. -/
def MAX_UNIQUE_IPS : Nat := 4096

/-- `#define CUSUM_WINDOW 100` from `detector.h`. -/
def CUSUM_WINDOW : Nat := 100

/-- One input row (`FlowRecord` in `detector.h`). -/
structure FlowRecord where
  src_ip : String
  dst_ip : String
  bytes : Int
  packets : Int
  timestamp : Int
  protocol : Int
  src_port : Int
  dst_port : Int
deriving Repr, DecidableEq, Inhabited

/-- Per-source-IP aggregate (`IpStat` in `detector.h`). -/
structure IpStat where
  ip : String
  packet_count : Int
  byte_count : Int
deriving Repr, DecidableEq, Inhabited

/-- The entry created for a first sighting of an IP: `find_or_add_ip`
initialises the slot to zero and `build_ip_stats` immediately adds the
record's `packets` and `bytes`. -/
def newStat (r : FlowRecord) : IpStat :=
  { ip := r.src_ip, packet_count := r.packets, byte_count := r.bytes }

/-- One `build_ip_stats` loop iteration for a single record
(`detector_enhanced.c:494-501`): `find_or_add_ip` scans the live entries
linearly; on a hit the slot is bumped by the record's `packets`/`bytes`,
on a miss a new slot is appended unless the table already holds
`MAX_UNIQUE_IPS` entries, in which case the record's IP is dropped.
`full` is the value of `*stat_count` at loop entry. -/
def insertIp (full : Nat) : List IpStat → FlowRecord → List IpStat
  | [], r => if full < MAX_UNIQUE_IPS then [newStat r] else []
  | e :: rest, r =>
    if e.ip = r.src_ip then
      { e with packet_count := e.packet_count + r.packets,
               byte_count := e.byte_count + r.bytes } :: rest
    else
      e :: insertIp full rest r

/-- Process one record against the current table. -/
def addRecord (s : List IpStat) (r : FlowRecord) : List IpStat :=
  insertIp s.length s r

/-- The IpStat table produced by `build_ip_stats` from a record array. -/
def buildStats (l : List FlowRecord) : List IpStat := l.foldl addRecord []

/-- `*total_packets`: every record's `packets` is added to the global
total, whether or not its IP found a slot. -/
def totalPackets (l : List FlowRecord) : Int := (l.map (fun r => r.packets)).sum

/-- `*total_bytes`, accumulated the same way. -/
def totalBytes (l : List FlowRecord) : Int := (l.map (fun r => r.bytes)).sum

/-- `*min_ts`: initialised to `records[0].timestamp`, then folded with
`min` over the whole array (`0` when the array is empty). -/
def minTs : List FlowRecord → Int
  | [] => 0
  | r :: rest => rest.foldl (fun m x => min m x.timestamp) r.timestamp

/-- `*max_ts`, dually. -/
def maxTs : List FlowRecord → Int
  | [] => 0
  | r :: rest => rest.foldl (fun m x => max m x.timestamp) r.timestamp

/-- Per-worker feature summary (`Features` in `detector.h`). -/
structure Features where
  top_ip : String
  entropy : ℝ
  avg_rate : ℝ
  spike_score : ℝ
  total_packets : Int
  total_flows : Int
  unique_ips : Int
  flow_duration_mean : ℝ
  packet_size_mean : ℝ
  packet_size_std : ℝ
  syn_ratio : ℝ
  udp_ratio : ℝ

/-- The `memset(out_feats, 0, sizeof(Features))` value. -/
def zeroFeatures : Features :=
  { top_ip := "", entropy := 0, avg_rate := 0, spike_score := 0,
    total_packets := 0, total_flows := 0, unique_ips := 0,
    flow_duration_mean := 0, packet_size_mean := 0, packet_size_std := 0,
    syn_ratio := 0, udp_ratio := 0 }

/-- The top-IP scan (`detector_enhanced.c:523-528` and the identical scan
in `detect_hot_ip`): start from index 0 and replace the candidate only on
a strictly larger `packet_count`, so the first maximum wins ties. -/
def topOf : List IpStat → IpStat
  | [] => { ip := "", packet_count := 0, byte_count := 0 }
  | e :: rest =>
    rest.foldl (fun best x => if x.packet_count > best.packet_count then x else best) e

/-- One entropy summand: `p = stat[i].packet_count / total_packets`;
`if (p > 0.0) entropy += -p * log2(p)` (`detector_enhanced.c:533-539`). -/
noncomputable def entropyTerm (total : Int) (e : IpStat) : ℝ :=
  let p : ℝ := (e.packet_count : ℝ) / (total : ℝ)
  if 0 < p then -(p * Real.logb 2 p) else 0

/-- The Shannon entropy accumulated by `compute_features`. -/
noncomputable def entropyOf (stats : List IpStat) (total : Int) : ℝ :=
  (stats.map (entropyTerm total)).sum

/-- `compute_features` of `detector_enhanced.c:511-579`.  The guard
zeroes the output when `total_packets <= 0 || stat_count <= 0 ||
count <= 0`. -/
noncomputable def computeFeatures (records : List FlowRecord) (stats : List IpStat)
    (total_packets min_ts max_ts : Int) : Features :=
  if total_packets ≤ 0 ∨ stats.length = 0 ∨ records.length = 0 then zeroFeatures
  else
    let top := topOf stats
    let duration : Int := if max_ts - min_ts ≤ 0 then 1 else max_ts - min_ts
    let avgPerIp : ℝ := (total_packets : ℝ) / (stats.length : ℝ)
    let avgPerIp := if avgPerIp ≤ 0 then 1 else avgPerIp
    let count : ℝ := (records.length : ℝ)
    let sizes := records.map fun r =>
      (r.bytes : ℝ) / (if 0 < r.packets then (r.packets : ℝ) else 1)
    let pmean := sizes.sum / count
    let pvar := (sizes.map fun x => x * x).sum / count - pmean * pmean
    { top_ip := top.ip,
      entropy := entropyOf stats total_packets,
      avg_rate := (total_packets : ℝ) / (duration : ℝ),
      spike_score := (top.packet_count : ℝ) / avgPerIp,
      total_packets := total_packets,
      total_flows := (records.length : Int),
      unique_ips := (stats.length : Int),
      flow_duration_mean := (duration : ℝ),
      packet_size_mean := pmean,
      packet_size_std := Real.sqrt (if 0 < pvar then pvar else 0),
      syn_ratio := ((records.filter fun r => r.protocol = 6).length : ℝ) / count,
      udp_ratio := ((records.filter fun r => r.protocol = 17).length : ℝ) / count }

/-- `detect_entropy_anomaly` (`detector_enhanced.c:584-594`): fire when
`unique_ips <= 1` or `entropy < 2.0`. -/
noncomputable def detect_entropy_anomaly (f : Features) : Bool :=
  if f.unique_ips ≤ 1 then true
  else if f.entropy < 2 then true
  else false

/-- CUSUM tracker state (`CusumState` in `detector.h`); `history` holds
the `sample_count` live samples, oldest first. -/
structure CusumState where
  cumsum_pos : ℝ
  cumsum_neg : ℝ
  mean : ℝ
  std : ℝ
  history : List ℝ

/-- `init_cusum` (`detector_enhanced.c:599-604`): zero state with the
warm-start baseline `mean = 1000.0`, `std = 200.0`. -/
def initCusum : CusumState :=
  { cumsum_pos := 0, cumsum_neg := 0, mean := 1000, std := 200, history := [] }

/-- `update_cusum` (`detector_enhanced.c:606-632`): when the window is
full drop the oldest sample, append the new one, recompute mean and
variance over the live history (variance clamped to `1.0` when not
positive before the square root), then push the standardised deviation
into both one-sided cumulative sums with slack `0.5`. -/
noncomputable def update_cusum (st : CusumState) (value : ℝ) : CusumState :=
  let h0 := if CUSUM_WINDOW ≤ st.history.length then st.history.tail else st.history
  let h1 := h0 ++ [value]
  let n : ℝ := (h1.length : ℝ)
  let mean := h1.sum / n
  let variance := (h1.map fun x => x * x).sum / n - mean * mean
  let std := Real.sqrt (if 0 < variance then variance else 1)
  let deviation := (value - mean) / (if 0 < std then std else 1)
  { cumsum_pos := max 0 (st.cumsum_pos + deviation - 0.5),
    cumsum_neg := max 0 (st.cumsum_neg - deviation - 0.5),
    mean := mean, std := std, history := h1 }

/-- `detect_cusum_anomaly` (`detector_enhanced.c:634-646`): update with
`f->avg_rate`, then fire when either cumulative sum exceeds `5.0`.
Returns the flag together with the updated state. -/
noncomputable def detect_cusum_anomaly (f : Features) (st : CusumState) : Bool × CusumState :=
  let st1 := update_cusum st f.avg_rate
  (if st1.cumsum_pos > 5 ∨ st1.cumsum_neg > 5 then true else false, st1)

/-- Fixed logistic scorer state (`MLDetector` in `detector.h`). -/
structure MLDetector where
  weights : List ℝ
  threshold : ℝ
  trained : Int

/-- `init_ml_detector` (`detector_enhanced.c:651-669`): the ten
pre-trained weights, threshold `0.6`, `trained = 1`. -/
noncomputable def initMl : MLDetector :=
  { weights := [-0.5, 0.001, 0.3, -0.2, 0.1, 0.2, 0.15, 0.1, 0.05, 0.1],
    threshold := 0.6, trained := 1 }

/-- `extract_ml_features` (`detector_enhanced.c:671-683`): the normalised
length-10 feature vector in the fixed order of the source. -/
noncomputable def extract_ml_features (f : Features) : List ℝ :=
  [f.entropy,
   f.avg_rate / 10000,
   f.spike_score / 10,
   f.packet_size_mean / 1500,
   f.syn_ratio,
   f.udp_ratio,
   1 / ((f.unique_ips : ℝ) + 1),
   f.flow_duration_mean / 1000,
   f.packet_size_std / 500,
   (f.total_packets : ℝ) / 10000]

/-- The weighted-sum loop of `detect_ml_anomaly`. -/
noncomputable def dotScore (w v : List ℝ) : ℝ := (List.zipWith (fun a b => a * b) w v).sum

/-- `1.0 / (1.0 + exp(-score))`. -/
noncomputable def sigmoid (s : ℝ) : ℝ := 1 / (1 + Real.exp (-s))

/-- The trailing part of `detect_ml_anomaly` applied to an already
extracted feature vector: `(prob > ml->threshold) ? 1 : 0`. -/
noncomputable def mlFireOnVec (ml : MLDetector) (v : List ℝ) : Bool :=
  if sigmoid (dotScore ml.weights v) > ml.threshold then true else false

/-- `detect_ml_anomaly` (`detector_enhanced.c:685-704`): return 0 when
untrained, else score the extracted vector. -/
noncomputable def detect_ml_anomaly (f : Features) (ml : MLDetector) : Bool :=
  if ml.trained = 0 then false else mlFireOnVec ml (extract_ml_features f)

/-- `detect_hot_ip` (`detector_enhanced.c:707-732`): the top source IP is
reported (flag, buffer) when its packet share exceeds `0.4`; otherwise
the output buffer is left empty. -/
noncomputable def detect_hot_ip (stats : List IpStat) (total : Int) : Bool × String :=
  if total ≤ 0 ∨ stats.length = 0 then (false, "")
  else
    let top := topOf stats
    if (top.packet_count : ℝ) / (total : ℝ) > 0.4 then (true, top.ip) else (false, "")

/-- The single wire message (`Alert` in `detector.h`); C `int` 0/1 flags
are modelled as `Bool`. -/
structure Alert where
  worker_rank : Int
  attack_flag : Bool
  suspicious_ip : String
  entropy : ℝ
  avg_rate : ℝ
  spike_score : ℝ
  total_packets : Int
  total_flows : Int
  entropy_detected : Bool
  cusum_detected : Bool
  ml_detected : Bool
  processing_time_ms : ℝ
  memory_used_kb : Int
  true_label : Bool

/-- The "no data" alert of `worker_start` (`detector_enhanced.c:165-172`):
`memset(&alert, 0, sizeof(Alert))` followed by `alert.worker_rank = rank`.
The zeroed `suspicious_ip` buffer is the empty string. -/
def emptyAlert (rank : Int) : Alert :=
  { worker_rank := rank, attack_flag := false, suspicious_ip := "",
    entropy := 0, avg_rate := 0, spike_score := 0,
    total_packets := 0, total_flows := 0,
    entropy_detected := false, cusum_detected := false, ml_detected := false,
    processing_time_ms := 0, memory_used_kb := 0, true_label := false }

/-- `sizeof(FlowRecord)` on the LP64 target: two 32-byte buffers plus six
4-byte ints. -/
def szFlowRecord : Int := 88

/-- `sizeof(IpStat)` on the LP64 target: 32-byte buffer, 4-byte int,
padding, 8-byte long. -/
def szIpStat : Int := 48

/-- The wall-clock readings `get_time_ms()` takes at the start and end of
`worker_start`. -/
structure WorkerClock where
  startMs : ℝ
  endMs : ℝ

/-- The timestamps the enhanced `load_partition` synthesises
(`detector_enhanced.c:446`): the `count`-th accepted record gets
`(int)time(NULL) + count`, where `tm count` is the clock value read at
that moment.  `i` is the index of the first record of the remaining
list. -/
def stampRecords (tm : Nat → Int) : Nat → List FlowRecord → List FlowRecord
  | _, [] => []
  | i, r :: rest => { r with timestamp := tm i + (i : Int) } :: stampRecords tm (i + 1) rest

/-- The Alert built and sent by the enhanced `worker_start`
(`detector_enhanced.c:149-252`) as a function of the loaded records, the
wall clock, and the ground-truth label derived from `dataset_root`.
Every algorithm state is freshly initialised per run (`init_cusum`,
`init_ml_detector` are called at the top of `worker_start`), and each
detector is invoked exactly once. -/
noncomputable def workerAlert (rank : Int) (records : List FlowRecord)
    (clock : WorkerClock) (label : Bool) : Alert :=
  if records.length = 0 then emptyAlert rank
  else
    let stats := buildStats records
    let tp := totalPackets records
    let feats := computeFeatures records stats tp (minTs records) (maxTs records)
    let flagE := detect_entropy_anomaly feats
    let flagC := (detect_cusum_anomaly feats initCusum).fst
    let flagM := detect_ml_anomaly feats initMl
    let hotIp := (detect_hot_ip stats tp).snd
    let attack := decide (2 ≤ flagE.toNat + flagC.toNat + flagM.toNat)
    { worker_rank := rank,
      attack_flag := attack,
      suspicious_ip :=
        if attack then (if hotIp ≠ "" then hotIp else feats.top_ip) else "NONE",
      entropy := feats.entropy,
      avg_rate := feats.avg_rate,
      spike_score := feats.spike_score,
      total_packets := feats.total_packets,
      total_flows := feats.total_flows,
      entropy_detected := flagE,
      cusum_detected := flagC,
      ml_detected := flagM,
      processing_time_ms := clock.endMs - clock.startMs,
      memory_used_kb := (szFlowRecord * (records.length : Int)
        + szIpStat * (stats.length : Int)) / 1024,
      true_label := label }

/-- The per-alert accumulation step of the coordinator receive loop
(`detector_enhanced.c:304-311`): only alerts with `attack_flag` update
the candidate, and a later alert displaces the current candidate only
with a strictly larger `avg_rate` (first arrival wins ties). -/
noncomputable def chooseStep (acc : Option Alert) (a : Alert) : Option Alert :=
  if a.attack_flag then
    match acc with
    | none => some a
    | some c => if a.avg_rate > c.avg_rate then some a else some c
  else acc

/-- `alerts[chosen_index]` after the receive loop (`none` encodes
`chosen_index == -1`), as a function of the arrival order. -/
noncomputable def chosenAlert (l : List Alert) : Option Alert := l.foldl chooseStep none

/-- `attack_votes` after the receive loop. -/
def countVotes (l : List Alert) : Nat := l.countP (fun a => a.attack_flag)

/-- The enhanced coordinator's global decision
(`detector_enhanced.c:334`): `attack_votes >= (num_workers / 2)` (C
integer division truncates) `&& chosen_index != -1`.  `blocking.csv`
receives a row exactly when this is set (`detector_enhanced.c:397-399`). -/
noncomputable def globalAttackEnhanced (l : List Alert) : Bool :=
  decide (l.length / 2 ≤ countVotes l) && (chosenAlert l).isSome

/-- The basic coordinator's global decision (`detector.c:194`):
`attack_votes >= 2 && chosen_index != -1`. -/
noncomputable def globalAttackBasic (l : List Alert) : Bool :=
  decide (2 ≤ countVotes l) && (chosenAlert l).isSome

/-- The blackholed `chosen_ip` of the enhanced coordinator: copied from
the winning alert when the attack is declared, else the empty buffer. -/
noncomputable def chosenIpEnhanced (l : List Alert) : String :=
  if globalAttackEnhanced l then
    match chosenAlert l with
    | some a => a.suspicious_ip
    | none => ""
  else ""

/-- Modelled from the spec: the global verdict rule of spec section 4.8,
`attack iff attack_votes ≥ ⌈N_workers/2⌉ and chosen_index is defined`,
stated for comparison with the code's `globalAttackEnhanced`. -/
noncomputable def specGlobalAttack (l : List Alert) : Bool :=
  decide ((l.length + 1) / 2 ≤ countVotes l) && (chosenAlert l).isSome

/-- Modelled from the spec: the normalised ML feature vector listed in
spec section 4.6, for comparison with `extract_ml_features`. -/
noncomputable def specMlVec (f : Features) : List ℝ :=
  [f.entropy, f.avg_rate / 10000, f.spike_score / 10, f.packet_size_mean / 1500,
   f.syn_ratio, f.udp_ratio, 1 / ((f.unique_ips : ℝ) + 1), f.flow_duration_mean / 1000,
   f.packet_size_std / 500, (f.total_packets : ℝ) / 10000]

/-- Modelled from the spec: the fixed weight vector `W` of spec
section 4.6. -/
noncomputable def specMlWeights : List ℝ :=
  [-0.5, 0.001, 0.3, -0.2, 0.1, 0.2, 0.15, 0.1, 0.05, 0.1]

/-- Modelled from the spec: "Fire iff `σ(s) > 0.6`" with
`s = ⟨W, specMlVec f⟩`. -/
def specMlFires (f : Features) : Prop :=
  sigmoid (dotScore specMlWeights (specMlVec f)) > 0.6

/-! ### Generic small lemmas -/

lemma ite_eq_true_iff (p : Prop) [Decidable p] :
    ((if p then true else false) = true) ↔ p := by
  by_cases h : p <;> simp [h]

/-! ### First-invocation behaviour of the CUSUM detector -/

lemma update_cusum_init (x : ℝ) :
    update_cusum initCusum x =
      { cumsum_pos := 0, cumsum_neg := 0, mean := x, std := 1, history := [x] } := by
  simp only [update_cusum, initCusum, CUSUM_WINDOW]
  norm_num

lemma cusum_first_fst_false (f : Features) :
    (detect_cusum_anomaly f initCusum).fst = false := by
  simp only [detect_cusum_anomaly, update_cusum_init]
  norm_num

/-! ### The logistic scorer near zero -/

lemma sigmoid_zero : sigmoid 0 = 1 / 2 := by
  simp [sigmoid, Real.exp_zero]
  norm_num

lemma sigmoid_point_15_le : ¬ sigmoid 0.15 > 0.6 := by
  have hexp : (0.85 : ℝ) < Real.exp (-0.15) := by
    have := Real.add_one_lt_exp (x := (-0.15 : ℝ)) (by norm_num)
    linarith
  have hpos : (0 : ℝ) < 1 + Real.exp (-0.15) := by positivity
  have : sigmoid 0.15 < 1 / 1.85 := by
    rw [sigmoid]
    apply one_div_lt_one_div_of_lt
    · norm_num
    · linarith
  intro h
  rw [gt_iff_lt] at h
  nlinarith

lemma dot_initMl_zero_vec : dotScore initMl.weights (List.replicate 10 (0 : ℝ)) = 0 := by
  show dotScore initMl.weights [0, 0, 0, 0, 0, 0, 0, 0, 0, 0] = 0
  simp [dotScore, initMl]

lemma ml_zeroFeatures_false : detect_ml_anomaly zeroFeatures initMl = false := by
  have h : dotScore initMl.weights (extract_ml_features zeroFeatures) = 0.15 := by
    simp [dotScore, initMl, extract_ml_features, zeroFeatures]
  rw [detect_ml_anomaly, if_neg (by norm_num [initMl] : ¬ initMl.trained = 0), mlFireOnVec, h,
    if_neg (by simpa [initMl] using sigmoid_point_15_le)]

/-! ### The worker on an empty shard -/

lemma workerAlert_nil (rank : Int) (clock : WorkerClock) (label : Bool) :
    workerAlert rank [] clock label = emptyAlert rank := by
  simp [workerAlert]

/-! ### Concrete alerts used as coordinator inputs -/

/-- An alert carrying just a vote and a rate, zero elsewhere; the shape
of the inputs of the coordinator scenarios in spec section 8. -/
def voteAlert (rank : Int) (flag : Bool) (rate : ℝ) : Alert :=
  { worker_rank := rank, attack_flag := flag,
    suspicious_ip := if flag then "10.0.0.1" else "NONE",
    entropy := 0, avg_rate := rate, spike_score := 0,
    total_packets := 0, total_flows := 0,
    entropy_detected := flag, cusum_detected := false, ml_detected := flag,
    processing_time_ms := 0, memory_used_kb := 0, true_label := false }

/-! ### Claim C1 -/

/-- C1: the claim says the coordinator declares a global attack iff
`attack_votes ≥ ⌈N_workers/2⌉` (with `chosen_index` defined), so a
three-worker run with attack flags (1, 0, 0) must yield no global attack
and no `blocking.csv` row.  The enhanced coordinator instead tests
`attack_votes >= num_workers / 2` with truncating C integer division
(`detector_enhanced.c:334`), so at that very input it declares the
attack (and `detector_enhanced.c:397-399` then appends the blocking
row), while the spec's ceiling rule evaluates to false: the code
contradicts both the spec and its own `/* majority voting */` comment. -/
theorem C1_coordinator_threshold_bug :
    globalAttackEnhanced [voteAlert 1 true 200, voteAlert 2 false 10, voteAlert 3 false 10]
      = true
    ∧ specGlobalAttack [voteAlert 1 true 200, voteAlert 2 false 10, voteAlert 3 false 10]
      = false := by
  constructor <;> rfl

/-! ### Claim C2 -/

/-- The features of the spec's rate-burst scenario, which reaches the
CUSUM detector as its observed statistic `x = avg_rate = 50000`. -/
def rateBurstFeatures : Features := { zeroFeatures with avg_rate := 50000 }

/-- C2, counterexample: the claim says the first-sample CUSUM call with
`avg_rate = 50000` standardises against the warm-start baseline
(z ≈ 245) and fires; on the code it returns 0, because `update_cusum`
recomputes the mean over the one-sample history before standardising. -/
theorem C2_counterexample :
    (detect_cusum_anomaly rateBurstFeatures initCusum).fst = false :=
  cusum_first_fst_false _

/-- C2, amended: on its single invocation per run, `update_cusum`
appends `x` to the empty history and recomputes `mean = x` and (with the
variance clamp) `std = 1`, so the standardised deviation is `z = 0`, both
cumulative sums become `max(0, -0.5) = 0`, and the detector cannot fire
on its first sample for any input, in particular not for
`avg_rate = 50000`. -/
theorem C2_cusum_first_invocation (f : Features) :
    update_cusum initCusum f.avg_rate =
      { cumsum_pos := 0, cumsum_neg := 0, mean := f.avg_rate, std := 1,
        history := [f.avg_rate] }
    ∧ (detect_cusum_anomaly f initCusum).fst = false :=
  ⟨update_cusum_init _, cusum_first_fst_false _⟩

/-! ### Claim C3 -/

/-- C3, counterexample: the claim says a worker whose shard is missing
sends an Alert with `suspicious_ip` equal to the string `"NONE"`; the
code builds that alert with `memset(&alert, 0, sizeof(Alert))`
(`detector_enhanced.c:165-172`), so `suspicious_ip` is the empty
string. -/
theorem C3_counterexample :
    (workerAlert 1 [] { startMs := 0, endMs := 0 } false).suspicious_ip ≠ "NONE" := by
  rw [workerAlert_nil]
  decide

/-- C3, amended: a worker with zero loaded records still produces exactly
one Alert, with `attack_flag = 0`, `suspicious_ip` the empty string (the
zeroed buffer), all numeric fields and detector flags zero, and only
`worker_rank` set. -/
theorem C3_no_data_alert (rank : Int) (clock : WorkerClock) (label : Bool) :
    (workerAlert rank [] clock label).attack_flag = false
    ∧ (workerAlert rank [] clock label).suspicious_ip = ""
    ∧ (workerAlert rank [] clock label).entropy = 0
    ∧ (workerAlert rank [] clock label).avg_rate = 0
    ∧ (workerAlert rank [] clock label).spike_score = 0
    ∧ (workerAlert rank [] clock label).total_packets = 0
    ∧ (workerAlert rank [] clock label).total_flows = 0
    ∧ (workerAlert rank [] clock label).entropy_detected = false
    ∧ (workerAlert rank [] clock label).cusum_detected = false
    ∧ (workerAlert rank [] clock label).ml_detected = false
    ∧ (workerAlert rank [] clock label).processing_time_ms = 0
    ∧ (workerAlert rank [] clock label).memory_used_kb = 0
    ∧ (workerAlert rank [] clock label).true_label = false
    ∧ (workerAlert rank [] clock label).worker_rank = rank := by
  rw [workerAlert_nil]
  exact ⟨rfl, rfl, rfl, rfl, rfl, rfl, rfl, rfl, rfl, rfl, rfl, rfl, rfl, rfl⟩

/-! ### Claim C5 -/

/-- C5: for every Features value the ML detector fires precisely when the
sigmoid of the dot product of the spec's weight vector with the spec's
normalised feature vector exceeds 0.6 (the embedded extractor and
weights coincide with the spec's lists definitionally), and on an
all-zero feature vector the score is 0, the sigmoid is 0.5, and the
detector does not fire. -/
theorem C5_ml_scorer (f : Features) :
    (detect_ml_anomaly f initMl = true ↔ specMlFires f)
    ∧ extract_ml_features f = specMlVec f
    ∧ initMl.weights = specMlWeights
    ∧ sigmoid (dotScore specMlWeights (List.replicate 10 (0 : ℝ))) = 1 / 2
    ∧ mlFireOnVec initMl (List.replicate 10 (0 : ℝ)) = false := by
  refine ⟨?_, rfl, rfl, ?_, ?_⟩
  · rw [detect_ml_anomaly, if_neg (by norm_num [initMl] : ¬ initMl.trained = 0), mlFireOnVec]
    exact ite_eq_true_iff _
  · rw [show dotScore specMlWeights (List.replicate 10 (0 : ℝ))
        = dotScore initMl.weights (List.replicate 10 (0 : ℝ)) from rfl,
      dot_initMl_zero_vec]
    exact sigmoid_zero
  · rw [mlFireOnVec, dot_initMl_zero_vec, sigmoid_zero,
      if_neg (by norm_num [initMl] : ¬ (1 : ℝ) / 2 > initMl.threshold)]

/-! ### Structure of the IP aggregator -/

/-- The IP column of the live table. -/
def ips (s : List IpStat) : List String := s.map (fun e => e.ip)

/-- `Σ IpStat.packet_count` over the live table. -/
def sumPackets (s : List IpStat) : Int := (s.map (fun e => e.packet_count)).sum

/-- `Σ IpStat.byte_count` over the live table. -/
def sumBytes (s : List IpStat) : Int := (s.map (fun e => e.byte_count)).sum

lemma insertIp_fresh (full : Nat) (s : List IpStat) (r : FlowRecord)
    (h : r.src_ip ∉ ips s) :
    insertIp full s r = if full < MAX_UNIQUE_IPS then s ++ [newStat r] else s := by
  induction s with
  | nil => simp [insertIp]
  | cons e rest ih =>
    simp only [ips, List.map_cons, List.mem_cons, not_or] at h
    rw [insertIp, if_neg (fun he => h.1 he.symm), ih (by simpa [ips] using h.2)]
    split <;> simp

lemma insertIp_found (full : Nat) (s : List IpStat) (r : FlowRecord)
    (h : r.src_ip ∈ ips s) :
    ips (insertIp full s r) = ips s
    ∧ (insertIp full s r).length = s.length
    ∧ sumPackets (insertIp full s r) = sumPackets s + r.packets
    ∧ sumBytes (insertIp full s r) = sumBytes s + r.bytes := by
  induction s with
  | nil => simp [ips] at h
  | cons e rest ih =>
    by_cases he : e.ip = r.src_ip
    · refine ⟨?_, ?_, ?_, ?_⟩ <;>
        simp [insertIp, he, ips, sumPackets, sumBytes] <;> ring
    · have h' : r.src_ip ∈ ips rest := by
        simp only [ips, List.map_cons, List.mem_cons] at h
        exact h.resolve_left (fun hx => he hx.symm)
      obtain ⟨h1, h2, h3, h4⟩ := ih h'
      refine ⟨?_, ?_, ?_, ?_⟩ <;>
        simp [insertIp, he, ips, sumPackets, sumBytes] <;>
        simp [ips, sumPackets, sumBytes] at h1 h2 h3 h4 <;>
        simp [h1, h2, h3, h4] <;> ring

lemma length_addRecord_ge (s : List IpStat) (r : FlowRecord) :
    s.length ≤ (addRecord s r).length := by
  by_cases h : r.src_ip ∈ ips s
  · rw [addRecord, (insertIp_found _ _ _ h).2.1]
  · rw [addRecord, insertIp_fresh _ _ _ h]
    split <;> simp

lemma length_addRecord_le_max (s : List IpStat) (r : FlowRecord)
    (h : s.length ≤ MAX_UNIQUE_IPS) : (addRecord s r).length ≤ MAX_UNIQUE_IPS := by
  by_cases hm : r.src_ip ∈ ips s
  · rw [addRecord, (insertIp_found _ _ _ hm).2.1]; exact h
  · rw [addRecord, insertIp_fresh _ _ _ hm]
    split
    · next hlt => simpa using hlt
    · exact h

lemma length_foldl_ge (l : List FlowRecord) :
    ∀ s : List IpStat, s.length ≤ (l.foldl addRecord s).length := by
  induction l with
  | nil => intro s; simp
  | cons r l' ih =>
    intro s
    exact le_trans (length_addRecord_ge s r) (ih (addRecord s r))

lemma length_foldl_le_max (l : List FlowRecord) :
    ∀ s : List IpStat, s.length ≤ MAX_UNIQUE_IPS →
      (l.foldl addRecord s).length ≤ MAX_UNIQUE_IPS := by
  induction l with
  | nil => intro s h; simpa using h
  | cons r l' ih =>
    intro s h
    exact ih (addRecord s r) (length_addRecord_le_max s r h)

lemma mem_ips_addRecord (s : List IpStat) (r : FlowRecord) (x : String)
    (h : x ∈ ips s) : x ∈ ips (addRecord s r) := by
  by_cases hm : r.src_ip ∈ ips s
  · rw [addRecord, (insertIp_found _ _ _ hm).1]; exact h
  · rw [addRecord, insertIp_fresh _ _ _ hm]
    split
    · simp only [ips, List.map_append, List.mem_append]
      exact Or.inl h
    · exact h

lemma ips_addRecord_sub (s : List IpStat) (r : FlowRecord) (x : String)
    (h : x ∈ ips (addRecord s r)) : x ∈ ips s ∨ x = r.src_ip := by
  by_cases hm : r.src_ip ∈ ips s
  · rw [addRecord, (insertIp_found _ _ _ hm).1] at h; exact Or.inl h
  · rw [addRecord, insertIp_fresh _ _ _ hm] at h
    split at h
    · simp only [ips, List.map_append, List.mem_append] at h
      rcases h with h | h
      · exact Or.inl h
      · simp [newStat] at h
        exact Or.inr h
    · exact Or.inl h

lemma src_mem_ips_addRecord (s : List IpStat) (r : FlowRecord)
    (h : s.length < MAX_UNIQUE_IPS) : r.src_ip ∈ ips (addRecord s r) := by
  by_cases hm : r.src_ip ∈ ips s
  · rw [addRecord, (insertIp_found _ _ _ hm).1]; exact hm
  · rw [addRecord, insertIp_fresh _ _ _ hm, if_pos h]
    simp [ips, newStat]

lemma mem_ips_foldl (l : List FlowRecord) :
    ∀ (s : List IpStat) (x : String), x ∈ ips s → x ∈ ips (l.foldl addRecord s) := by
  induction l with
  | nil => intro s x h; exact h
  | cons r l' ih =>
    intro s x h
    exact ih (addRecord s r) x (mem_ips_addRecord s r x h)

lemma sumPackets_append (s t : List IpStat) :
    sumPackets (s ++ t) = sumPackets s + sumPackets t := by
  simp [sumPackets]

lemma sumBytes_append (s t : List IpStat) :
    sumBytes (s ++ t) = sumBytes s + sumBytes t := by
  simp [sumBytes]

lemma addRecord_sums_le (s : List IpStat) (r : FlowRecord) (hpk : 0 ≤ r.packets) :
    sumPackets (addRecord s r) ≤ sumPackets s + r.packets := by
  by_cases hm : r.src_ip ∈ ips s
  · rw [addRecord, (insertIp_found _ _ _ hm).2.2.1]
  · rw [addRecord, insertIp_fresh _ _ _ hm]
    split
    · rw [sumPackets_append]; simp [sumPackets, newStat]
    · linarith

lemma sumPackets_foldl_le (l : List FlowRecord) :
    ∀ s : List IpStat, (∀ r ∈ l, 0 ≤ r.packets) →
      sumPackets (l.foldl addRecord s) ≤ sumPackets s + totalPackets l := by
  induction l with
  | nil => intro s _; simp [totalPackets]
  | cons r l' ih =>
    intro s h
    have h1 := ih (addRecord s r) (fun x hx => h x (List.mem_cons_of_mem _ hx))
    have h2 := addRecord_sums_le s r (h r (List.mem_cons_self _ _))
    have h3 : totalPackets (r :: l') = r.packets + totalPackets l' := by
      simp [totalPackets]
    simp only [List.foldl_cons]
    linarith

lemma conservation_or_full (l : List FlowRecord) :
    ∀ s : List IpStat, s.length ≤ MAX_UNIQUE_IPS →
      (sumPackets (l.foldl addRecord s) = sumPackets s + totalPackets l
        ∧ sumBytes (l.foldl addRecord s) = sumBytes s + totalBytes l)
      ∨ (l.foldl addRecord s).length = MAX_UNIQUE_IPS := by
  induction l with
  | nil => intro s _; left; constructor <;> simp [totalPackets, totalBytes]
  | cons r l' ih =>
    intro s hs
    have htp : totalPackets (r :: l') = r.packets + totalPackets l' := by
      simp [totalPackets]
    have htb : totalBytes (r :: l') = r.bytes + totalBytes l' := by
      simp [totalBytes]
    simp only [List.foldl_cons]
    by_cases hm : r.src_ip ∈ ips s
    · obtain ⟨_, hlen, hp, hb⟩ := insertIp_found s.length s r hm
      rcases ih (addRecord s r) (by rw [addRecord, hlen]; exact hs) with ⟨h1, h2⟩ | h
      · left
        rw [addRecord] at h1 h2 ⊢
        rw [h1, hp, h2, hb, htp, htb]
        constructor <;> ring
      · right; exact h
    · by_cases hlt : s.length < MAX_UNIQUE_IPS
      · have hadd : addRecord s r = s ++ [newStat r] := by
          rw [addRecord, insertIp_fresh _ _ _ hm, if_pos hlt]
        have hlen : (addRecord s r).length ≤ MAX_UNIQUE_IPS := by
          rw [hadd]; simpa using hlt
        rcases ih (addRecord s r) hlen with ⟨h1, h2⟩ | h
        · left
          rw [h1, h2, hadd, sumPackets_append, sumBytes_append, htp, htb]
          simp [sumPackets, sumBytes, newStat]
          constructor <;> ring
        · right; exact h
      · have hadd : addRecord s r = s := by
          rw [addRecord, insertIp_fresh _ _ _ hm, if_neg hlt]
        right
        rw [hadd]
        have hge := length_foldl_ge l' s
        have hle := length_foldl_le_max l' s hs
        omega

lemma entries_pos_insertIp (full : Nat) (s : List IpStat) (r : FlowRecord)
    (hpk : 1 ≤ r.packets) (hs : ∀ e ∈ s, 1 ≤ e.packet_count) :
    ∀ e ∈ insertIp full s r, 1 ≤ e.packet_count := by
  induction s with
  | nil =>
    intro e he
    rw [insertIp] at he
    split at he
    · simp only [List.mem_singleton] at he
      simpa [he, newStat] using hpk
    · simp at he
  | cons a rest ih =>
    intro e he
    rw [insertIp] at he
    split at he
    · rcases List.mem_cons.mp he with h | h
      · have := hs a (List.mem_cons_self _ _)
        subst h; simp only []; omega
      · exact hs e (List.mem_cons_of_mem _ h)
    · rcases List.mem_cons.mp he with h | h
      · subst h; exact hs e (List.mem_cons_self _ _)
      · exact ih (fun x hx => hs x (List.mem_cons_of_mem _ hx)) e h

lemma entries_pos_foldl (l : List FlowRecord) :
    ∀ s : List IpStat, (∀ r ∈ l, 1 ≤ r.packets) → (∀ e ∈ s, 1 ≤ e.packet_count) →
      ∀ e ∈ l.foldl addRecord s, 1 ≤ e.packet_count := by
  induction l with
  | nil => intro s _ hs; exact hs
  | cons r l' ih =>
    intro s hl hs
    exact ih (addRecord s r) (fun x hx => hl x (List.mem_cons_of_mem _ hx))
      (entries_pos_insertIp s.length s r (hl r (List.mem_cons_self _ _)) hs)

lemma mem_le_sumPackets (s : List IpStat) (hs : ∀ e ∈ s, 0 ≤ e.packet_count) :
    ∀ e ∈ s, e.packet_count ≤ sumPackets s := by
  induction s with
  | nil => intro e he; simp at he
  | cons a rest ih =>
    intro e he
    have hrest : (0 : Int) ≤ (rest.map (fun e => e.packet_count)).sum := by
      apply List.sum_nonneg
      intro x hx
      simp only [List.mem_map] at hx
      obtain ⟨y, hy, rfl⟩ := hx
      exact hs y (List.mem_cons_of_mem _ hy)
    rcases List.mem_cons.mp he with h | h
    · subst h
      simp only [sumPackets, List.map_cons, List.sum_cons]
      linarith
    · have := ih (fun x hx => hs x (List.mem_cons_of_mem _ hx)) e h
      have ha := hs a (List.mem_cons_self _ _)
      simp only [sumPackets, List.map_cons, List.sum_cons] at *
      linarith

lemma length_le_sumPackets (s : List IpStat) (hs : ∀ e ∈ s, 1 ≤ e.packet_count) :
    (s.length : Int) ≤ sumPackets s := by
  induction s with
  | nil => simp [sumPackets]
  | cons a rest ih =>
    have := hs a (List.mem_cons_self _ _)
    have h2 := ih (fun x hx => hs x (List.mem_cons_of_mem _ hx))
    simp only [sumPackets, List.map_cons, List.sum_cons, List.length_cons] at *
    push_cast
    linarith

lemma length_le_totalPackets (l : List FlowRecord) (h : ∀ r ∈ l, 1 ≤ r.packets) :
    (l.length : Int) ≤ totalPackets l := by
  induction l with
  | nil => simp [totalPackets]
  | cons r l' ih =>
    have := h r (List.mem_cons_self _ _)
    have h2 := ih (fun x hx => h x (List.mem_cons_of_mem _ hx))
    simp only [totalPackets, List.map_cons, List.sum_cons, List.length_cons] at *
    push_cast
    linarith

lemma buildStats_length_pos (l : List FlowRecord) (h : l ≠ []) :
    1 ≤ (buildStats l).length := by
  obtain ⟨r, l', rfl⟩ := List.exists_cons_of_ne_nil h
  have h0 : addRecord [] r = [newStat r] := by
    rw [addRecord, insertIp]
    simp [MAX_UNIQUE_IPS]
  rw [buildStats, List.foldl_cons, h0]
  simpa using length_foldl_ge l' [newStat r]

lemma buildStats_ip_mem (l : List FlowRecord) :
    ∀ (s : List IpStat) (x : String), x ∈ ips (l.foldl addRecord s) →
      x ∈ ips s ∨ x ∈ l.map (fun r => r.src_ip) := by
  induction l with
  | nil => intro s x h; exact Or.inl h
  | cons r l' ih =>
    intro s x h
    rcases ih (addRecord s r) x h with h' | h'
    · rcases ips_addRecord_sub s r x h' with h'' | h''
      · exact Or.inl h''
      · right; rw [h'']; simp
    · right
      simp only [List.map_cons, List.mem_cons]
      exact Or.inr h'

lemma topOf_mem_aux {α : Type} (pick : α → α → α)
    (hpick : ∀ a b, pick a b = a ∨ pick a b = b) :
    ∀ (l : List α) (acc : α), l.foldl pick acc = acc ∨ l.foldl pick acc ∈ l := by
  intro l
  induction l with
  | nil => intro acc; simp
  | cons x l' ih =>
    intro acc
    rcases ih (pick acc x) with h | h
    · rcases hpick acc x with h' | h'
      · rw [List.foldl_cons, h, h']; exact Or.inl rfl
      · rw [List.foldl_cons, h, h']
        exact Or.inr (List.mem_cons_self _ _)
    · exact Or.inr (List.mem_cons_of_mem _ (by rwa [List.foldl_cons]))

lemma topOf_mem (s : List IpStat) (h : s ≠ []) : topOf s ∈ s := by
  obtain ⟨e, rest, rfl⟩ := List.exists_cons_of_ne_nil h
  rw [topOf]
  have h2 := topOf_mem_aux (fun best x => if x.packet_count > best.packet_count then x else best)
    (fun a b => by by_cases hc : b.packet_count > a.packet_count <;> simp [hc]) rest e
  rcases h2 with h' | h'
  · rw [h']; exact List.mem_cons_self _ _
  · exact List.mem_cons_of_mem _ h'

/-! ### Table overflow: the aggregator on pairwise-distinct source IPs -/

lemma foldl_fresh (l : List FlowRecord) :
    ∀ s : List IpStat, (l.map (fun r => r.src_ip)).Nodup →
      (∀ r ∈ l, r.src_ip ∉ ips s) →
      l.foldl addRecord s = s ++ (l.take (MAX_UNIQUE_IPS - s.length)).map newStat := by
  induction l with
  | nil => intro s _ _; simp
  | cons r l' ih =>
    intro s hnd hdisj
    have hfresh : r.src_ip ∉ ips s := hdisj r (List.mem_cons_self _ _)
    simp only [List.map_cons, List.nodup_cons] at hnd
    by_cases hlt : s.length < MAX_UNIQUE_IPS
    · have hadd : addRecord s r = s ++ [newStat r] := by
        rw [addRecord, insertIp_fresh _ _ _ hfresh, if_pos hlt]
      have hdisj' : ∀ x ∈ l', x.src_ip ∉ ips (s ++ [newStat r]) := by
        intro x hx
        simp only [ips, List.map_append, List.mem_append, not_or]
        refine ⟨hdisj x (List.mem_cons_of_mem _ hx), ?_⟩
        simp only [List.map_cons, List.map_nil, List.mem_singleton, newStat]
        intro hxy
        exact hnd.1 (hxy ▸ List.mem_map_of_mem _ hx)
      rw [List.foldl_cons, hadd, ih _ hnd.2 hdisj']
      have hm : MAX_UNIQUE_IPS - s.length = (MAX_UNIQUE_IPS - (s ++ [newStat r]).length) + 1 := by
        simp only [List.length_append, List.length_singleton]
        omega
      rw [hm, List.take_succ_cons, List.map_cons, List.append_assoc]
      rfl
    · have hadd : addRecord s r = s := by
        rw [addRecord, insertIp_fresh _ _ _ hfresh, if_neg hlt]
      have h0 : MAX_UNIQUE_IPS - s.length = 0 := by omega
      rw [List.foldl_cons, hadd,
        ih _ hnd.2 (fun x hx => hdisj x (List.mem_cons_of_mem _ hx)), h0]
      simp

/-- Distinct source addresses used to overflow the 4096-entry table:
`ipName i` is the string of `i + 1` letters. -/
def ipName (i : Nat) : String := String.mk (List.replicate (i + 1) 'a')

/-- A one-packet flow from the `i`-th distinct source. -/
def wideRecord (i : Nat) : FlowRecord :=
  { src_ip := ipName i, dst_ip := "10.0.0.2", bytes := 1, packets := 1,
    timestamp := 0, protocol := 17, src_port := 1, dst_port := 2 }

/-- A shard with 4097 distinct source IPs (one more than the table
holds), well inside the `MAX_FLOWS` cap. -/
def wideShard : List FlowRecord := (List.range 4097).map wideRecord

lemma ipName_inj : Function.Injective ipName := by
  intro i j h
  have hd := congrArg String.data h
  simp only [ipName] at hd
  have := congrArg List.length hd
  simp only [List.length_replicate] at this
  omega

lemma wideShard_srcs_nodup : (wideShard.map (fun r => r.src_ip)).Nodup := by
  rw [wideShard, List.map_map]
  exact (List.nodup_range 4097).map ipName_inj

lemma sum_map_const_int {α : Type} (l : List α) (c : Int) :
    (l.map (fun _ => c)).sum = l.length * c := by
  induction l with
  | nil => simp
  | cons x l ih => simp [ih]; ring

lemma buildStats_wideShard :
    buildStats wideShard = (wideShard.take MAX_UNIQUE_IPS).map newStat := by
  rw [buildStats, foldl_fresh _ _ wideShard_srcs_nodup (by intro r _; simp [ips])]
  simp

/-! ### Claim C7 -/

/-- C7, counterexample: the claim asserts
`Σ IpStat.packet_count = total_packets` for every record array the
aggregator processes; on a shard with 4097 distinct one-packet sources,
the 4097-th IP is silently dropped when the 4096-entry table is full
(`find_or_add_ip` returns -1), yet its packets still count toward the
global total, so the table sums to 4096 while `total_packets = 4097`. -/
theorem C7_counterexample :
    sumPackets (buildStats wideShard) ≠ totalPackets wideShard := by
  have htake : wideShard.take MAX_UNIQUE_IPS = List.map wideRecord (List.range 4096) := by
    rw [wideShard, ← List.map_take, List.take_range]
    rw [show min MAX_UNIQUE_IPS 4097 = 4096 from by rw [MAX_UNIQUE_IPS]; omega]
  have h1 : sumPackets (buildStats wideShard) = 4096 := by
    rw [buildStats_wideShard, htake]
    rw [sumPackets, List.map_map, List.map_map]
    rw [show (((fun e => e.packet_count) ∘ newStat) ∘ wideRecord) = fun _ => (1 : Int) from rfl]
    rw [sum_map_const_int, List.length_range]
    norm_num
  have h2 : totalPackets wideShard = 4097 := by
    rw [totalPackets, wideShard, List.map_map]
    rw [show ((fun r => r.packets) ∘ wideRecord) = fun _ => (1 : Int) from rfl]
    rw [sum_map_const_int, List.length_range]
    norm_num
  rw [h1, h2]
  norm_num

lemma conservation_aux (l : List FlowRecord) :
    ∀ s : List IpStat, (ips s).Nodup →
      ((ips s).toFinset ∪ (l.map (fun r => r.src_ip)).toFinset).card ≤ MAX_UNIQUE_IPS →
      sumPackets (l.foldl addRecord s) = sumPackets s + totalPackets l
      ∧ sumBytes (l.foldl addRecord s) = sumBytes s + totalBytes l := by
  induction l with
  | nil => intro s _ _; simp [totalPackets, totalBytes]
  | cons r l' ih =>
    intro s hnd hcard
    have htp : totalPackets (r :: l') = r.packets + totalPackets l' := by
      simp [totalPackets]
    have htb : totalBytes (r :: l') = r.bytes + totalBytes l' := by
      simp [totalBytes]
    simp only [List.foldl_cons]
    by_cases hm : r.src_ip ∈ ips s
    · obtain ⟨hips, _, hp, hb⟩ := insertIp_found s.length s r hm
      have hips' : ips (addRecord s r) = ips s := hips
      have hcard' :
          ((ips (addRecord s r)).toFinset ∪ (l'.map (fun x => x.src_ip)).toFinset).card
            ≤ MAX_UNIQUE_IPS := by
        refine le_trans (Finset.card_le_card ?_) hcard
        rw [hips']
        apply Finset.union_subset_union_right
        simp only [List.map_cons, List.toFinset_cons]
        exact Finset.subset_insert _ _
      obtain ⟨h1, h2⟩ := ih (addRecord s r) (by rw [hips']; exact hnd) hcard'
      have hps : sumPackets (addRecord s r) = sumPackets s + r.packets := hp
      have hbs : sumBytes (addRecord s r) = sumBytes s + r.bytes := hb
      rw [h1, h2, hps, hbs, htp, htb]
      constructor <;> ring
    · have hlen : (ips s).toFinset.card = s.length := by
        rw [List.toFinset_card_of_nodup hnd]
        simp [ips]
      have hsrc_mem : r.src_ip ∈ ((r :: l').map (fun x => x.src_ip)).toFinset := by
        simp
      have hssub : (ips s).toFinset ⊂
          ((ips s).toFinset ∪ ((r :: l').map (fun x => x.src_ip)).toFinset) :=
        (Finset.ssubset_iff_of_subset Finset.subset_union_left).mpr
          ⟨r.src_ip, Finset.mem_union_right _ hsrc_mem,
            fun hx => hm (List.mem_toFinset.mp hx)⟩
      have hlt : s.length < MAX_UNIQUE_IPS := by
        have := Finset.card_lt_card hssub
        omega
      have hadd : addRecord s r = s ++ [newStat r] := by
        rw [addRecord, insertIp_fresh _ _ _ hm, if_pos hlt]
      have hips' : ips (s ++ [newStat r]) = ips s ++ [r.src_ip] := by
        simp [ips, newStat]
      have hnd' : (ips (addRecord s r)).Nodup := by
        rw [hadd, hips', List.nodup_append]
        exact ⟨hnd, List.nodup_singleton _, by simpa [List.disjoint_singleton] using hm⟩
      have huni :
          (ips (addRecord s r)).toFinset ∪ (l'.map (fun x => x.src_ip)).toFinset
            = (ips s).toFinset ∪ ((r :: l').map (fun x => x.src_ip)).toFinset := by
        rw [hadd, hips', List.toFinset_append]
        ext x
        simp only [Finset.mem_union, List.mem_toFinset, List.mem_singleton,
          List.map_cons, List.mem_cons]
        tauto
      obtain ⟨h1, h2⟩ := ih (addRecord s r) hnd' (by rw [huni]; exact hcard)
      rw [h1, h2, hadd, sumPackets_append, sumBytes_append, htp, htb]
      simp only [sumPackets, sumBytes, newStat, List.map_cons, List.map_nil,
        List.sum_cons, List.sum_nil]
      constructor <;> ring

/-- C7, amended: the conservation law
`Σ IpStat.packet_count = total_packets` and
`Σ IpStat.byte_count = total_bytes` holds for every record array whose
number of distinct source IPs fits the table
(at most `MAX_UNIQUE_IPS = 4096`); when the table overflows, dropped IPs
still count toward the totals, so in general the table sums are only
bounded by the totals. -/
theorem C7_conservation (l : List FlowRecord)
    (hcard : (l.map (fun r => r.src_ip)).toFinset.card ≤ MAX_UNIQUE_IPS) :
    sumPackets (buildStats l) = totalPackets l
    ∧ sumBytes (buildStats l) = totalBytes l := by
  have h := conservation_aux l [] (by simp [ips]) (by simpa [ips] using hcard)
  simpa [sumPackets, sumBytes] using h

/-- Witness for C7: a two-record shard from a single source satisfies the
hypothesis and hence the conservation law. -/
theorem C7_conservation_witness :
    (([wideRecord 0, wideRecord 0].map (fun r => r.src_ip)).toFinset.card
        ≤ MAX_UNIQUE_IPS)
    ∧ (sumPackets (buildStats [wideRecord 0, wideRecord 0])
        = totalPackets [wideRecord 0, wideRecord 0]
      ∧ sumBytes (buildStats [wideRecord 0, wideRecord 0])
        = totalBytes [wideRecord 0, wideRecord 0]) :=
  ⟨by decide, C7_conservation _ (by decide)⟩

/-! ### The worker on a non-empty shard -/

/-- The Features value the worker computes from its loaded records. -/
noncomputable def workerFeats (records : List FlowRecord) : Features :=
  computeFeatures records (buildStats records) (totalPackets records)
    (minTs records) (maxTs records)

/-- The hot-IP result the worker computes from its loaded records. -/
noncomputable def workerHot (records : List FlowRecord) : Bool × String :=
  detect_hot_ip (buildStats records) (totalPackets records)

lemma workerAlert_eq (rank : Int) (records : List FlowRecord) (clock : WorkerClock)
    (label : Bool) (hne : ¬ records.length = 0) :
    workerAlert rank records clock label =
      { worker_rank := rank,
        attack_flag := decide (2 ≤ (detect_entropy_anomaly (workerFeats records)).toNat
          + ((detect_cusum_anomaly (workerFeats records) initCusum).fst).toNat
          + (detect_ml_anomaly (workerFeats records) initMl).toNat),
        suspicious_ip :=
          if decide (2 ≤ (detect_entropy_anomaly (workerFeats records)).toNat
              + ((detect_cusum_anomaly (workerFeats records) initCusum).fst).toNat
              + (detect_ml_anomaly (workerFeats records) initMl).toNat) then
            (if (workerHot records).snd ≠ "" then (workerHot records).snd
             else (workerFeats records).top_ip)
          else "NONE",
        entropy := (workerFeats records).entropy,
        avg_rate := (workerFeats records).avg_rate,
        spike_score := (workerFeats records).spike_score,
        total_packets := (workerFeats records).total_packets,
        total_flows := (workerFeats records).total_flows,
        entropy_detected := detect_entropy_anomaly (workerFeats records),
        cusum_detected := (detect_cusum_anomaly (workerFeats records) initCusum).fst,
        ml_detected := detect_ml_anomaly (workerFeats records) initMl,
        processing_time_ms := clock.endMs - clock.startMs,
        memory_used_kb := (szFlowRecord * (records.length : Int)
          + szIpStat * ((buildStats records).length : Int)) / 1024,
        true_label := label } := by
  simp only [workerAlert, workerFeats, workerHot]
  rw [if_neg hne]

lemma detect_hot_ip_cases (stats : List IpStat) (total : Int) :
    detect_hot_ip stats total = (false, "")
    ∨ (detect_hot_ip stats total = (true, (topOf stats).ip)
        ∧ ¬ (total ≤ 0 ∨ stats.length = 0)) := by
  by_cases hguard : (total ≤ 0 ∨ stats.length = 0)
  · left
    rw [detect_hot_ip, if_pos hguard]
  · by_cases hs : ((topOf stats).packet_count : ℝ) / (total : ℝ) > 0.4
    · right
      refine ⟨?_, hguard⟩
      rw [detect_hot_ip, if_neg hguard]
      exact if_pos hs
    · left
      rw [detect_hot_ip, if_neg hguard]
      exact if_neg hs

lemma top_ip_ne_empty (records : List FlowRecord) (hne : records ≠ [])
    (hsrc : ∀ r ∈ records, r.src_ip ≠ "") :
    (topOf (buildStats records)).ip ≠ "" := by
  have hbne : buildStats records ≠ [] := by
    have hpos := buildStats_length_pos records hne
    intro h
    rw [h] at hpos
    simp at hpos
  have hmem : (topOf (buildStats records)).ip ∈ ips (buildStats records) :=
    List.mem_map_of_mem _ (topOf_mem _ hbne)
  rcases buildStats_ip_mem records [] _ hmem with h | h
  · simp [ips] at h
  · obtain ⟨r, hr, hrip⟩ := List.mem_map.mp h
    rw [← hrip]
    exact hsrc r hr

/-! ### Claim C4 -/

/-- C4: for every worker with a non-empty shard, `attack_flag` is set
exactly when at least 2 of the three detector flags fire; when set,
`suspicious_ip` is the hot IP when the hot-IP test fired, else
`Features.top_ip`; when clear, `suspicious_ip` is the literal `"NONE"`.
(The source-IP hypothesis reflects the shard parser, whose `%31[^,]`
conversion never yields an empty source address.) -/
theorem C4_worker_vote (rank : Int) (records : List FlowRecord) (clock : WorkerClock)
    (label : Bool) (hne : records ≠ []) (hsrc : ∀ r ∈ records, r.src_ip ≠ "") :
    ((workerAlert rank records clock label).attack_flag = true ↔
      2 ≤ (workerAlert rank records clock label).entropy_detected.toNat
        + (workerAlert rank records clock label).cusum_detected.toNat
        + (workerAlert rank records clock label).ml_detected.toNat)
    ∧ ((workerAlert rank records clock label).attack_flag = true →
        (workerAlert rank records clock label).suspicious_ip =
          (if (workerHot records).fst = true then (workerHot records).snd
           else (workerFeats records).top_ip))
    ∧ ((workerAlert rank records clock label).attack_flag = false →
        (workerAlert rank records clock label).suspicious_ip = "NONE") := by
  have hlen : ¬ records.length = 0 := by simpa [List.length_eq_zero] using hne
  rw [workerAlert_eq rank records clock label hlen]
  refine ⟨by simp, ?_, ?_⟩
  · intro hatt
    simp only at hatt ⊢
    rw [if_pos hatt]
    rcases detect_hot_ip_cases (buildStats records) (totalPackets records) with hcase | hcase
    · rw [show workerHot records = (false, "") from hcase]
      simp
    · rw [show workerHot records = (true, (topOf (buildStats records)).ip) from hcase.1]
      have hip := top_ip_ne_empty records hne hsrc
      simp [hip]
  · intro hatt
    simp only at hatt ⊢
    rw [if_neg (by simp [hatt])]

/-- Witness for C4 at a concrete one-record shard. -/
theorem C4_worker_vote_witness :
    ([wideRecord 0] ≠ [] ∧ ∀ r ∈ [wideRecord 0], r.src_ip ≠ "")
    ∧ (((workerAlert 1 [wideRecord 0] { startMs := 0, endMs := 1 } false).attack_flag = true ↔
        2 ≤ (workerAlert 1 [wideRecord 0] { startMs := 0, endMs := 1 } false).entropy_detected.toNat
          + (workerAlert 1 [wideRecord 0] { startMs := 0, endMs := 1 } false).cusum_detected.toNat
          + (workerAlert 1 [wideRecord 0] { startMs := 0, endMs := 1 } false).ml_detected.toNat)
      ∧ ((workerAlert 1 [wideRecord 0] { startMs := 0, endMs := 1 } false).attack_flag = true →
          (workerAlert 1 [wideRecord 0] { startMs := 0, endMs := 1 } false).suspicious_ip =
            (if (workerHot [wideRecord 0]).fst = true then (workerHot [wideRecord 0]).snd
             else (workerFeats [wideRecord 0]).top_ip))
      ∧ ((workerAlert 1 [wideRecord 0] { startMs := 0, endMs := 1 } false).attack_flag = false →
          (workerAlert 1 [wideRecord 0] { startMs := 0, endMs := 1 } false).suspicious_ip = "NONE")) :=
  ⟨⟨by decide, by decide⟩,
    C4_worker_vote 1 [wideRecord 0] { startMs := 0, endMs := 1 } false
      (by decide) (by decide)⟩

/-! ### The coordinator receive-loop fold -/

lemma chooseStep_eq (acc : Option Alert) (a : Alert) :
    (a.attack_flag = false ∧ chooseStep acc a = acc)
    ∨ (a.attack_flag = true ∧ acc = none ∧ chooseStep acc a = some a)
    ∨ (a.attack_flag = true ∧ ∃ c, acc = some c ∧
        ((a.avg_rate > c.avg_rate ∧ chooseStep acc a = some a)
          ∨ (¬ a.avg_rate > c.avg_rate ∧ chooseStep acc a = some c))) := by
  by_cases hf : a.attack_flag = true
  · cases acc with
    | none => exact Or.inr (Or.inl ⟨hf, rfl, by simp [chooseStep, hf]⟩)
    | some c =>
      by_cases hr : a.avg_rate > c.avg_rate
      · exact Or.inr (Or.inr ⟨hf, c, rfl, Or.inl ⟨hr, by simp [chooseStep, hf, hr]⟩⟩)
      · exact Or.inr (Or.inr ⟨hf, c, rfl, Or.inr ⟨hr, by simp [chooseStep, hf, hr]⟩⟩)
  · exact Or.inl ⟨by simpa using hf, by simp [chooseStep, hf]⟩

lemma foldl_chooseStep_some (l : List Alert) :
    ∀ c : Alert, ∃ m, l.foldl chooseStep (some c) = some m := by
  induction l with
  | nil => intro c; exact ⟨c, rfl⟩
  | cons a l' ih =>
    intro c
    rw [List.foldl_cons]
    rcases chooseStep_eq (some c) a with ⟨_, h⟩ | ⟨_, h, _⟩ | ⟨_, d, hd, hcs⟩
    · rw [h]; exact ih c
    · cases h
    · rcases hcs with ⟨_, h⟩ | ⟨_, h⟩
      · rw [h]; exact ih a
      · cases hd; rw [h]; exact ih c

lemma foldl_chooseStep_none_iff (l : List Alert) :
    l.foldl chooseStep none = none ↔ ∀ a ∈ l, a.attack_flag = false := by
  induction l with
  | nil => simp
  | cons a l' ih =>
    rw [List.foldl_cons]
    by_cases hf : a.attack_flag = true
    · have h1 : chooseStep none a = some a := by simp [chooseStep, hf]
      rw [h1]
      obtain ⟨m, hm⟩ := foldl_chooseStep_some l' a
      rw [hm]
      constructor
      · intro h; cases h
      · intro h
        have := h a (List.mem_cons_self _ _)
        rw [this] at hf
        cases hf
    · have h1 : chooseStep none a = none := by simp [chooseStep, hf]
      rw [h1, ih]
      constructor
      · intro h x hx
        rcases List.mem_cons.mp hx with rfl | hx'
        · simpa using hf
        · exact h x hx'
      · intro h x hx
        exact h x (List.mem_cons_of_mem _ hx)

lemma foldl_chooseStep_max (l : List Alert) :
    ∀ (acc : Option Alert) (m : Alert),
      (∀ c, acc = some c → c.attack_flag = true) →
      l.foldl chooseStep acc = some m →
      m.attack_flag = true
      ∧ (acc = some m ∨ m ∈ l)
      ∧ (∀ a ∈ l, a.attack_flag = true → a.avg_rate ≤ m.avg_rate)
      ∧ (∀ c, acc = some c → c.avg_rate ≤ m.avg_rate) := by
  induction l with
  | nil =>
    intro acc m hacc h
    simp only [List.foldl_nil] at h
    refine ⟨hacc m h, Or.inl h, by simp, fun c hc => ?_⟩
    rw [h] at hc
    cases hc
    exact le_refl _
  | cons a l' ih =>
    intro acc m hacc h
    rw [List.foldl_cons] at h
    rcases chooseStep_eq acc a with ⟨hf, hcs⟩ | ⟨hf, hnone, hcs⟩ | ⟨hf, c, hc, hcases⟩
    · rw [hcs] at h
      obtain ⟨h1, h2, h3, h4⟩ := ih acc m hacc h
      refine ⟨h1, ?_, ?_, h4⟩
      · rcases h2 with h2 | h2
        · exact Or.inl h2
        · exact Or.inr (List.mem_cons_of_mem _ h2)
      · intro x hx hxf
        rcases List.mem_cons.mp hx with rfl | hx'
        · rw [hxf] at hf; cases hf
        · exact h3 x hx' hxf
    · rw [hcs] at h
      obtain ⟨h1, h2, h3, h4⟩ := ih (some a) m (fun c hc => by cases hc; exact hf) h
      refine ⟨h1, ?_, ?_, ?_⟩
      · rcases h2 with h2 | h2
        · cases h2; exact Or.inr (List.mem_cons_self _ _)
        · exact Or.inr (List.mem_cons_of_mem _ h2)
      · intro x hx hxf
        rcases List.mem_cons.mp hx with rfl | hx'
        · exact h4 x rfl
        · exact h3 x hx' hxf
      · intro d hd
        rw [hnone] at hd
        cases hd
    · have hcflag := hacc c hc
      rcases hcases with ⟨hr, hcs⟩ | ⟨hr, hcs⟩
      · rw [hcs] at h
        obtain ⟨h1, h2, h3, h4⟩ := ih (some a) m (fun d hd => by cases hd; exact hf) h
        refine ⟨h1, ?_, ?_, ?_⟩
        · rcases h2 with h2 | h2
          · cases h2; exact Or.inr (List.mem_cons_self _ _)
          · exact Or.inr (List.mem_cons_of_mem _ h2)
        · intro x hx hxf
          rcases List.mem_cons.mp hx with rfl | hx'
          · exact h4 x rfl
          · exact h3 x hx' hxf
        · intro d hd
          rw [hc] at hd
          cases hd
          exact le_trans (le_of_lt hr) (h4 a rfl)
      · rw [hcs] at h
        obtain ⟨h1, h2, h3, h4⟩ := ih (some c) m (fun d hd => by cases hd; exact hcflag) h
        refine ⟨h1, ?_, ?_, ?_⟩
        · rcases h2 with h2 | h2
          · rw [← hc] at h2; exact Or.inl h2
          · exact Or.inr (List.mem_cons_of_mem _ h2)
        · intro x hx hxf
          rcases List.mem_cons.mp hx with rfl | hx'
          · exact le_trans (le_of_not_lt hr) (h4 c rfl)
          · exact h3 x hx' hxf
        · intro d hd
          rw [hc] at hd
          cases hd
          exact h4 c rfl

lemma chosenAlert_isSome_iff (l : List Alert) :
    (chosenAlert l).isSome = true ↔ ∃ a ∈ l, a.attack_flag = true := by
  rw [chosenAlert, Option.isSome_iff_ne_none]
  constructor
  · intro h
    by_contra hc
    push_neg at hc
    exact h ((foldl_chooseStep_none_iff l).mpr
      (fun a ha => by simpa using hc a ha))
  · intro ⟨a, ha, hf⟩ h
    have := (foldl_chooseStep_none_iff l).mp h a ha
    rw [this] at hf
    cases hf

lemma keep_max (ys : List Alert) :
    ∀ m : Alert, (∀ y ∈ ys, y.attack_flag = true → y.avg_rate ≤ m.avg_rate) →
      ys.foldl chooseStep (some m) = some m := by
  induction ys with
  | nil => intro m _; rfl
  | cons y ys' ih =>
    intro m hle
    rw [List.foldl_cons]
    rcases chooseStep_eq (some m) y with ⟨_, hcs⟩ | ⟨_, hnone, _⟩ | ⟨hf, c, hc, hcases⟩
    · rw [hcs]; exact ih m (fun x hx => hle x (List.mem_cons_of_mem _ hx))
    · cases hnone
    · injection hc with hmc
      subst hmc
      rcases hcases with ⟨hr, _⟩ | ⟨_, hcs⟩
      · exact absurd hr (not_lt.mpr (hle y (List.mem_cons_self _ _) hf))
      · rw [hcs]; exact ih m (fun x hx => hle x (List.mem_cons_of_mem _ hx))

lemma chosen_first_max (xs : List Alert) (m : Alert) (ys : List Alert)
    (hm : m.attack_flag = true)
    (hxs : ∀ x ∈ xs, x.attack_flag = true → x.avg_rate < m.avg_rate)
    (hys : ∀ y ∈ ys, y.attack_flag = true → y.avg_rate ≤ m.avg_rate) :
    chosenAlert (xs ++ m :: ys) = some m := by
  rw [chosenAlert, List.foldl_append, List.foldl_cons]
  have hstep : (xs.foldl chooseStep none) = none
      ∨ ∃ c, xs.foldl chooseStep none = some c ∧ c.attack_flag = true ∧ c ∈ xs := by
    cases hacc : xs.foldl chooseStep none with
    | none => exact Or.inl rfl
    | some c =>
      obtain ⟨h1, h2, _, _⟩ := foldl_chooseStep_max xs none c (by simp) hacc
      exact Or.inr ⟨c, rfl, h1, h2.resolve_left (by simp)⟩
  rcases hstep with hacc | ⟨c, hacc, hcf, hcx⟩
  · rw [hacc, show chooseStep none m = some m from by simp [chooseStep, hm]]
    exact keep_max ys m hys
  · rw [hacc,
      show chooseStep (some c) m = some m from by
        simp [chooseStep, hm, hxs c hcx hcf]]
    exact keep_max ys m hys

/-! ### Claim C9 -/

/-- C9: the global verdict of the enhanced coordinator is invariant under
every permutation of Alert arrival order; when no two voting alerts have
equal `avg_rate`, the chosen alert (and so the blackholed IP) is also
permutation-invariant; and the acknowledged tie-break is exactly
first-arrival-wins: an alert that votes, strictly beats every earlier
voting alert, and weakly beats every later one is the chosen one. -/
theorem C9_coordinator_commutes (l₁ l₂ : List Alert) (hp : l₁.Perm l₂) :
    globalAttackEnhanced l₁ = globalAttackEnhanced l₂
    ∧ ((∀ a ∈ l₁, ∀ b ∈ l₁, a.attack_flag = true → b.attack_flag = true →
          a.avg_rate = b.avg_rate → a = b) →
        chosenAlert l₁ = chosenAlert l₂ ∧ chosenIpEnhanced l₁ = chosenIpEnhanced l₂)
    ∧ (∀ (xs : List Alert) (m : Alert) (ys : List Alert), m.attack_flag = true →
        (∀ x ∈ xs, x.attack_flag = true → x.avg_rate < m.avg_rate) →
        (∀ y ∈ ys, y.attack_flag = true → y.avg_rate ≤ m.avg_rate) →
        chosenAlert (xs ++ m :: ys) = some m) := by
  have hsome : (chosenAlert l₁).isSome = (chosenAlert l₂).isSome := by
    have hiff : ((chosenAlert l₁).isSome = true) ↔ ((chosenAlert l₂).isSome = true) := by
      rw [chosenAlert_isSome_iff, chosenAlert_isSome_iff]
      constructor
      · rintro ⟨a, ha, hf⟩
        exact ⟨a, hp.mem_iff.mp ha, hf⟩
      · rintro ⟨a, ha, hf⟩
        exact ⟨a, hp.mem_iff.mpr ha, hf⟩
    cases h1 : (chosenAlert l₁).isSome <;> cases h2 : (chosenAlert l₂).isSome <;> simp_all
  have hglob : globalAttackEnhanced l₁ = globalAttackEnhanced l₂ := by
    rw [globalAttackEnhanced, globalAttackEnhanced, countVotes, countVotes,
      hp.countP_eq, hp.length_eq, hsome]
  refine ⟨hglob, fun hinj => ?_, fun xs m ys => chosen_first_max xs m ys⟩
  have hchosen : chosenAlert l₁ = chosenAlert l₂ := by
    cases h1 : chosenAlert l₁ with
    | none =>
      have := (foldl_chooseStep_none_iff l₁).mp h1
      symm
      exact (foldl_chooseStep_none_iff l₂).mpr
        (fun a ha => this a (hp.mem_iff.mpr ha))
    | some m₁ =>
      cases h2 : chosenAlert l₂ with
      | none =>
        have hall := (foldl_chooseStep_none_iff l₂).mp h2
        have : chosenAlert l₁ = none :=
          (foldl_chooseStep_none_iff l₁).mpr (fun a ha => hall a (hp.mem_iff.mp ha))
        rw [h1] at this
        cases this
      | some m₂ =>
        obtain ⟨hf1, hm1, hd1, _⟩ := foldl_chooseStep_max l₁ none m₁ (by simp) h1
        obtain ⟨hf2, hm2, hd2, _⟩ := foldl_chooseStep_max l₂ none m₂ (by simp) h2
        have hm1' : m₁ ∈ l₁ := hm1.resolve_left (by simp)
        have hm2' : m₂ ∈ l₁ := hp.mem_iff.mpr (hm2.resolve_left (by simp))
        have hle1 : m₁.avg_rate ≤ m₂.avg_rate := hd2 m₁ (hp.mem_iff.mp hm1') hf1
        have hle2 : m₂.avg_rate ≤ m₁.avg_rate := hd1 m₂ hm2' hf2
        rw [hinj m₁ hm1' m₂ hm2' hf1 hf2 (le_antisymm hle1 hle2)]
  refine ⟨hchosen, ?_⟩
  rw [chosenIpEnhanced, chosenIpEnhanced, hglob, hchosen]

/-- Witness for C9 at a two-alert swap with a single voting alert. -/
theorem C9_coordinator_commutes_witness :
    ([voteAlert 1 true 200, voteAlert 2 false 10].Perm
        [voteAlert 2 false 10, voteAlert 1 true 200])
    ∧ (globalAttackEnhanced [voteAlert 1 true 200, voteAlert 2 false 10]
        = globalAttackEnhanced [voteAlert 2 false 10, voteAlert 1 true 200]
      ∧ ((∀ a ∈ [voteAlert 1 true 200, voteAlert 2 false 10],
            ∀ b ∈ [voteAlert 1 true 200, voteAlert 2 false 10],
            a.attack_flag = true → b.attack_flag = true →
            a.avg_rate = b.avg_rate → a = b) →
          chosenAlert [voteAlert 1 true 200, voteAlert 2 false 10]
            = chosenAlert [voteAlert 2 false 10, voteAlert 1 true 200]
          ∧ chosenIpEnhanced [voteAlert 1 true 200, voteAlert 2 false 10]
            = chosenIpEnhanced [voteAlert 2 false 10, voteAlert 1 true 200])
      ∧ (∀ (xs : List Alert) (m : Alert) (ys : List Alert), m.attack_flag = true →
          (∀ x ∈ xs, x.attack_flag = true → x.avg_rate < m.avg_rate) →
          (∀ y ∈ ys, y.attack_flag = true → y.avg_rate ≤ m.avg_rate) →
          chosenAlert (xs ++ m :: ys) = some m)) :=
  ⟨List.Perm.swap (voteAlert 2 false 10) (voteAlert 1 true 200) [],
    C9_coordinator_commutes _ _
      (List.Perm.swap (voteAlert 2 false 10) (voteAlert 1 true 200) [])⟩

/-! ### Attack alerts carry a non-empty suspicious IP -/

lemma workerFeats_guard (records : List FlowRecord)
    (h : totalPackets records ≤ 0 ∨ (buildStats records).length = 0
      ∨ records.length = 0) :
    workerFeats records = zeroFeatures := by
  rw [workerFeats, computeFeatures, if_pos h]

lemma workerFeats_top (records : List FlowRecord)
    (h : ¬ (totalPackets records ≤ 0 ∨ (buildStats records).length = 0
      ∨ records.length = 0)) :
    (workerFeats records).top_ip = (topOf (buildStats records)).ip := by
  rw [workerFeats, computeFeatures, if_neg h]

lemma entropy_zeroFeatures_true : detect_entropy_anomaly zeroFeatures = true := by
  rw [detect_entropy_anomaly, if_pos]
  simp [zeroFeatures]

lemma worker_attack_ip_ne_empty (rank : Int) (records : List FlowRecord)
    (clock : WorkerClock) (label : Bool)
    (hsrc : ∀ r ∈ records, r.src_ip ≠ "")
    (hatt : (workerAlert rank records clock label).attack_flag = true) :
    (workerAlert rank records clock label).suspicious_ip ≠ "" := by
  by_cases hlen : records.length = 0
  · exfalso
    have hnil : records = [] := List.length_eq_zero.mp hlen
    rw [hnil, workerAlert_nil] at hatt
    cases hatt
  · have hne : records ≠ [] := fun h => hlen (by rw [h]; rfl)
    rw [workerAlert_eq rank records clock label hlen] at hatt ⊢
    simp only at hatt ⊢
    rw [if_pos hatt]
    by_cases hguard : totalPackets records ≤ 0 ∨ (buildStats records).length = 0
        ∨ records.length = 0
    · exfalso
      rw [workerFeats_guard records hguard, entropy_zeroFeatures_true,
        cusum_first_fst_false, ml_zeroFeatures_false] at hatt
      simp at hatt
    · rcases detect_hot_ip_cases (buildStats records) (totalPackets records) with
        hcase | hcase
      · rw [show workerHot records = (false, "") from hcase]
        rw [if_neg (by simp), workerFeats_top records hguard]
        exact top_ip_ne_empty records hne hsrc
      · rw [show workerHot records = (true, (topOf (buildStats records)).ip) from hcase.1]
        have hip := top_ip_ne_empty records hne hsrc
        rw [if_pos (by simpa using hip)]
        exact hip

/-! ### Claim C10 -/

/-- C10: in a run in which every received Alert was produced by
`worker_start` (with the parser invariant that source addresses are
non-empty), a declared global attack blackholes the `suspicious_ip` of
one of the received alerts that voted `attack_flag = 1`, and that string
is non-empty: the winning alert came from a worker with a non-empty
shard, whose top IP is one of its records' source addresses. -/
theorem C10_blackhole_ip_sound (l : List Alert)
    (hprod : ∀ a ∈ l, ∃ (rank : Int) (records : List FlowRecord)
        (clock : WorkerClock) (label : Bool),
        (∀ r ∈ records, r.src_ip ≠ "") ∧ a = workerAlert rank records clock label) :
    globalAttackEnhanced l = true →
      ∃ a ∈ l, a.attack_flag = true ∧ chosenIpEnhanced l = a.suspicious_ip
        ∧ a.suspicious_ip ≠ "" := by
  intro hg
  have hsome : (chosenAlert l).isSome = true := by
    rw [globalAttackEnhanced, Bool.and_eq_true] at hg
    exact hg.2
  obtain ⟨m, hm⟩ := Option.isSome_iff_exists.mp hsome
  obtain ⟨hf, hmem, _, _⟩ := foldl_chooseStep_max l none m (by simp) hm
  have hmem' : m ∈ l := hmem.resolve_left (by simp)
  refine ⟨m, hmem', hf, ?_, ?_⟩
  · rw [chosenIpEnhanced, if_pos (by rw [hg]), hm]
  · obtain ⟨rank, records, clock, label, hsrc, hma⟩ := hprod m hmem'
    rw [hma]
    exact worker_attack_ip_ne_empty rank records clock label hsrc (hma ▸ hf)

/-- Witness for C10 at a run of a single worker on a one-record shard. -/
theorem C10_blackhole_ip_sound_witness :
    (∀ a ∈ [workerAlert 1 [wideRecord 0] { startMs := 0, endMs := 1 } false],
      ∃ (rank : Int) (records : List FlowRecord) (clock : WorkerClock) (label : Bool),
        (∀ r ∈ records, r.src_ip ≠ "") ∧ a = workerAlert rank records clock label)
    ∧ (globalAttackEnhanced [workerAlert 1 [wideRecord 0] { startMs := 0, endMs := 1 } false]
          = true →
        ∃ a ∈ [workerAlert 1 [wideRecord 0] { startMs := 0, endMs := 1 } false],
          a.attack_flag = true
          ∧ chosenIpEnhanced [workerAlert 1 [wideRecord 0] { startMs := 0, endMs := 1 } false]
              = a.suspicious_ip
          ∧ a.suspicious_ip ≠ "") :=
  ⟨fun a ha =>
      ⟨1, [wideRecord 0], { startMs := 0, endMs := 1 }, false, by decide,
        List.mem_singleton.mp ha⟩,
    C10_blackhole_ip_sound _ (fun a ha =>
      ⟨1, [wideRecord 0], { startMs := 0, endMs := 1 }, false, by decide,
        List.mem_singleton.mp ha⟩)⟩

/-! ### Clock dependence of the enhanced worker -/

lemma stampRecords_length (tm : Nat → Int) :
    ∀ (i : Nat) (l : List FlowRecord), (stampRecords tm i l).length = l.length := by
  intro i l
  induction l generalizing i with
  | nil => rfl
  | cons r rest ih => simp [stampRecords, ih]

lemma insertIp_timestamp_irrel (full : Nat) (s : List IpStat) (r : FlowRecord) (t : Int) :
    insertIp full s { r with timestamp := t } = insertIp full s r := by
  induction s with
  | nil => rfl
  | cons e rest ih => simp only [insertIp, ih]

lemma foldl_addRecord_stamp (tm : Nat → Int) :
    ∀ (l : List FlowRecord) (i : Nat) (s : List IpStat),
      (stampRecords tm i l).foldl addRecord s = l.foldl addRecord s := by
  intro l
  induction l with
  | nil => intro i s; rfl
  | cons r rest ih =>
    intro i s
    rw [stampRecords, List.foldl_cons, List.foldl_cons, addRecord, addRecord,
      insertIp_timestamp_irrel, ih]

lemma buildStats_stamp (tm : Nat → Int) (i : Nat) (l : List FlowRecord) :
    buildStats (stampRecords tm i l) = buildStats l := by
  rw [buildStats, buildStats, foldl_addRecord_stamp]

lemma stampRecords_map_eq {β : Type} (f : FlowRecord → β)
    (hf : ∀ (r : FlowRecord) (t : Int), f { r with timestamp := t } = f r)
    (tm : Nat → Int) :
    ∀ (i : Nat) (l : List FlowRecord), (stampRecords tm i l).map f = l.map f := by
  intro i l
  induction l generalizing i with
  | nil => rfl
  | cons r rest ih => simp [stampRecords, hf, ih]

lemma stampRecords_countP_eq (p : FlowRecord → Bool)
    (hp : ∀ (r : FlowRecord) (t : Int), p { r with timestamp := t } = p r)
    (tm : Nat → Int) :
    ∀ (i : Nat) (l : List FlowRecord),
      ((stampRecords tm i l).filter p).length = (l.filter p).length := by
  intro i l
  induction l generalizing i with
  | nil => rfl
  | cons r rest ih =>
    rw [stampRecords, List.filter_cons, List.filter_cons, hp]
    by_cases hr : p r = true
    · rw [if_pos hr, if_pos hr, List.length_cons, List.length_cons, ih]
    · rw [if_neg hr, if_neg hr, ih]

lemma totalPackets_stamp (tm : Nat → Int) (i : Nat) (l : List FlowRecord) :
    totalPackets (stampRecords tm i l) = totalPackets l := by
  rw [totalPackets, totalPackets, stampRecords_map_eq (fun r => r.packets) (fun _ _ => rfl)]

lemma stamp_mem_ts (c : Int) :
    ∀ (l : List FlowRecord) (i : Nat) (x : FlowRecord),
      x ∈ stampRecords (fun _ => c) i l → ∃ j : Nat, i ≤ j ∧ x.timestamp = c + (j : Int) := by
  intro l
  induction l with
  | nil => intro i x h; cases h
  | cons r rest ih =>
    intro i x h
    rcases List.mem_cons.mp h with rfl | h'
    · exact ⟨i, le_refl _, rfl⟩
    · obtain ⟨j, hj, hx⟩ := ih (i + 1) x h'
      exact ⟨j, by omega, hx⟩

lemma fold_min_of_le (l : List FlowRecord) :
    ∀ a : Int, (∀ x ∈ l, a ≤ x.timestamp) →
      l.foldl (fun m x => min m x.timestamp) a = a := by
  induction l with
  | nil => intro a _; rfl
  | cons r rest ih =>
    intro a h
    rw [List.foldl_cons, min_eq_left (h r (List.mem_cons_self _ _))]
    exact ih a (fun x hx => h x (List.mem_cons_of_mem _ hx))

lemma minTs_stamp (c : Int) (l : List FlowRecord) (i : Nat) (h : l ≠ []) :
    minTs (stampRecords (fun _ => c) i l) = c + (i : Int) := by
  obtain ⟨r, rest, rfl⟩ := List.exists_cons_of_ne_nil h
  rw [stampRecords, minTs]
  rw [show ({ r with timestamp := (fun _ : Nat => c) i + (i : Int) } : FlowRecord).timestamp
    = c + (i : Int) from rfl]
  apply fold_min_of_le
  intro x hx
  obtain ⟨j, hj, hts⟩ := stamp_mem_ts c rest (i + 1) x hx
  rw [hts]
  omega

lemma fold_max_stamp (c : Int) :
    ∀ (l : List FlowRecord) (i : Nat) (a : Int), l ≠ [] →
      (stampRecords (fun _ => c) i l).foldl (fun m x => max m x.timestamp) a
        = max a (c + (i : Int) + (l.length : Int) - 1) := by
  intro l
  induction l with
  | nil => intro i a h; cases h rfl
  | cons r rest ih =>
    intro i a _
    rw [stampRecords, List.foldl_cons]
    rw [show ({ r with timestamp := (fun _ : Nat => c) i + (i : Int) } : FlowRecord).timestamp
      = c + (i : Int) from rfl]
    by_cases hrest : rest = []
    · subst hrest
      simp only [stampRecords, List.foldl_nil, List.length_cons, List.length_nil]
      congr 1
      push_cast
      ring
    · rw [ih (i + 1) _ hrest]
      have h1 : c + ((i + 1 : Nat) : Int) + (rest.length : Int) - 1
          = c + (i : Int) + (rest.length : Int) := by
        push_cast
        ring
      have h2 : c + (i : Int) + ((r :: rest).length : Int) - 1
          = c + (i : Int) + (rest.length : Int) := by
        simp only [List.length_cons]
        push_cast
        ring
      rw [h1, h2, max_assoc,
        max_eq_right (by omega : c + (i : Int) ≤ c + (i : Int) + (rest.length : Int))]

lemma maxTs_stamp (c : Int) (l : List FlowRecord) (i : Nat) (h : l ≠ []) :
    maxTs (stampRecords (fun _ => c) i l) = c + (i : Int) + (l.length : Int) - 1 := by
  obtain ⟨r, rest, rfl⟩ := List.exists_cons_of_ne_nil h
  rw [stampRecords, maxTs]
  rw [show ({ r with timestamp := (fun _ : Nat => c) i + (i : Int) } : FlowRecord).timestamp
    = c + (i : Int) from rfl]
  by_cases hrest : rest = []
  · subst hrest
    simp only [stampRecords, List.foldl_nil, List.length_cons, List.length_nil]
    push_cast
    ring
  · rw [fold_max_stamp c rest (i + 1) _ hrest]
    have h1 : c + ((i + 1 : Nat) : Int) + (rest.length : Int) - 1
        = c + (i : Int) + (rest.length : Int) := by
      push_cast
      ring
    have h2 : c + (i : Int) + ((r :: rest).length : Int) - 1
        = c + (i : Int) + (rest.length : Int) := by
      simp only [List.length_cons]
      push_cast
      ring
    rw [h1, h2, max_eq_right (by omega : c + (i : Int) ≤ c + (i : Int) + (rest.length : Int))]

lemma computeFeatures_records_invariant (r₁ r₂ : List FlowRecord) (stats : List IpStat)
    (tp mn mx : Int)
    (hlen : r₁.length = r₂.length)
    (hmap : r₁.map (fun r => (r.bytes : ℝ) / (if 0 < r.packets then (r.packets : ℝ) else 1))
      = r₂.map (fun r => (r.bytes : ℝ) / (if 0 < r.packets then (r.packets : ℝ) else 1)))
    (h6 : (r₁.filter fun r => r.protocol = 6).length = (r₂.filter fun r => r.protocol = 6).length)
    (h17 : (r₁.filter fun r => r.protocol = 17).length
      = (r₂.filter fun r => r.protocol = 17).length) :
    computeFeatures r₁ stats tp mn mx = computeFeatures r₂ stats tp mn mx := by
  simp only [computeFeatures, hlen, hmap, h6, h17]

lemma computeFeatures_span_invariant (records : List FlowRecord) (stats : List IpStat)
    (tp mn₁ mx₁ mn₂ mx₂ : Int) (h : mx₁ - mn₁ = mx₂ - mn₂) :
    computeFeatures records stats tp mn₁ mx₁ = computeFeatures records stats tp mn₂ mx₂ := by
  simp only [computeFeatures, h]

lemma workerFeats_stamp_const (raw : List FlowRecord) (c₁ c₂ : Int) (hraw : raw ≠ []) :
    workerFeats (stampRecords (fun _ => c₁) 0 raw)
      = workerFeats (stampRecords (fun _ => c₂) 0 raw) := by
  rw [workerFeats, workerFeats, buildStats_stamp, buildStats_stamp,
    totalPackets_stamp, totalPackets_stamp]
  rw [computeFeatures_records_invariant (stampRecords (fun _ => c₁) 0 raw)
    (stampRecords (fun _ => c₂) 0 raw) _ _ _ _
    (by rw [stampRecords_length, stampRecords_length])
    (by rw [stampRecords_map_eq (fun r => (r.bytes : ℝ) / (if 0 < r.packets then (r.packets : ℝ) else 1)) (fun _ _ => rfl),
      stampRecords_map_eq (fun r => (r.bytes : ℝ) / (if 0 < r.packets then (r.packets : ℝ) else 1)) (fun _ _ => rfl)])
    (by rw [stampRecords_countP_eq (fun r => decide (r.protocol = 6)) (fun _ _ => rfl),
      stampRecords_countP_eq (fun r => decide (r.protocol = 6)) (fun _ _ => rfl)])
    (by rw [stampRecords_countP_eq (fun r => decide (r.protocol = 17)) (fun _ _ => rfl),
      stampRecords_countP_eq (fun r => decide (r.protocol = 17)) (fun _ _ => rfl)])]
  apply computeFeatures_span_invariant
  rw [minTs_stamp c₁ raw 0 hraw, maxTs_stamp c₁ raw 0 hraw,
    minTs_stamp c₂ raw 0 hraw, maxTs_stamp c₂ raw 0 hraw]
  ring

lemma workerAlert_processing (rank : Int) (records : List FlowRecord)
    (clock : WorkerClock) (label : Bool) :
    (workerAlert rank records clock label).processing_time_ms
      = if records.length = 0 then 0 else clock.endMs - clock.startMs := by
  rw [workerAlert]
  split <;> rfl

/-! ### Claim C8 -/

/-- C8, counterexample: the claim says byte-identical shard input yields
byte-identical Alerts; but `processing_time_ms`, a field of the Alert
struct, is the wall-clock delta of the run, so two executions on the
same one-record shard with different end-of-run clock readings produce
different Alerts. -/
theorem C8_counterexample :
    workerAlert 1 (stampRecords (fun _ => 0) 0 [wideRecord 0])
        { startMs := 0, endMs := 1 } false
      ≠ workerAlert 1 (stampRecords (fun _ => 0) 0 [wideRecord 0])
        { startMs := 0, endMs := 2 } false := by
  intro h
  have hlen : ¬ (stampRecords (fun _ => 0) 0 [wideRecord 0]).length = 0 := by
    rw [stampRecords_length]
    simp
  have hp := congrArg Alert.processing_time_ms h
  rw [workerAlert_processing, workerAlert_processing, if_neg hlen, if_neg hlen] at hp
  norm_num at hp

/-- C8, amended: the enhanced worker's Alert is a deterministic function
of the shard contents and the clock readings (`time(NULL)` during the
load, `get_time_ms` at start and end of the run); in particular, when
`time(NULL)` is constant during the load, every Alert field except
`processing_time_ms` is independent of all clock inputs, because the
synthesised timestamps `time(NULL) + count` then shift all records by a
common offset and only the timestamp span enters the features. -/
theorem C8_alert_clock_determinism (raw : List FlowRecord) (rank : Int) (label : Bool)
    (c₁ c₂ : Int) (k₁ k₂ : WorkerClock) :
    (workerAlert rank (stampRecords (fun _ => c₁) 0 raw) k₁ label).worker_rank
      = (workerAlert rank (stampRecords (fun _ => c₂) 0 raw) k₂ label).worker_rank
    ∧ (workerAlert rank (stampRecords (fun _ => c₁) 0 raw) k₁ label).attack_flag
      = (workerAlert rank (stampRecords (fun _ => c₂) 0 raw) k₂ label).attack_flag
    ∧ (workerAlert rank (stampRecords (fun _ => c₁) 0 raw) k₁ label).suspicious_ip
      = (workerAlert rank (stampRecords (fun _ => c₂) 0 raw) k₂ label).suspicious_ip
    ∧ (workerAlert rank (stampRecords (fun _ => c₁) 0 raw) k₁ label).entropy
      = (workerAlert rank (stampRecords (fun _ => c₂) 0 raw) k₂ label).entropy
    ∧ (workerAlert rank (stampRecords (fun _ => c₁) 0 raw) k₁ label).avg_rate
      = (workerAlert rank (stampRecords (fun _ => c₂) 0 raw) k₂ label).avg_rate
    ∧ (workerAlert rank (stampRecords (fun _ => c₁) 0 raw) k₁ label).spike_score
      = (workerAlert rank (stampRecords (fun _ => c₂) 0 raw) k₂ label).spike_score
    ∧ (workerAlert rank (stampRecords (fun _ => c₁) 0 raw) k₁ label).total_packets
      = (workerAlert rank (stampRecords (fun _ => c₂) 0 raw) k₂ label).total_packets
    ∧ (workerAlert rank (stampRecords (fun _ => c₁) 0 raw) k₁ label).total_flows
      = (workerAlert rank (stampRecords (fun _ => c₂) 0 raw) k₂ label).total_flows
    ∧ (workerAlert rank (stampRecords (fun _ => c₁) 0 raw) k₁ label).entropy_detected
      = (workerAlert rank (stampRecords (fun _ => c₂) 0 raw) k₂ label).entropy_detected
    ∧ (workerAlert rank (stampRecords (fun _ => c₁) 0 raw) k₁ label).cusum_detected
      = (workerAlert rank (stampRecords (fun _ => c₂) 0 raw) k₂ label).cusum_detected
    ∧ (workerAlert rank (stampRecords (fun _ => c₁) 0 raw) k₁ label).ml_detected
      = (workerAlert rank (stampRecords (fun _ => c₂) 0 raw) k₂ label).ml_detected
    ∧ (workerAlert rank (stampRecords (fun _ => c₁) 0 raw) k₁ label).memory_used_kb
      = (workerAlert rank (stampRecords (fun _ => c₂) 0 raw) k₂ label).memory_used_kb
    ∧ (workerAlert rank (stampRecords (fun _ => c₁) 0 raw) k₁ label).true_label
      = (workerAlert rank (stampRecords (fun _ => c₂) 0 raw) k₂ label).true_label := by
  by_cases hraw : raw = []
  · subst hraw
    rw [show stampRecords (fun _ => c₁) 0 [] = [] from rfl,
      show stampRecords (fun _ => c₂) 0 [] = [] from rfl]
    exact ⟨rfl, rfl, rfl, rfl, rfl, rfl, rfl, rfl, rfl, rfl, rfl, rfl, rfl⟩
  · have hlen : ∀ c : Int, ¬ (stampRecords (fun _ => c) 0 raw).length = 0 := by
      intro c
      rw [stampRecords_length]
      simpa [List.length_eq_zero] using hraw
    rw [workerAlert_eq _ _ _ _ (hlen c₁), workerAlert_eq _ _ _ _ (hlen c₂)]
    have hfe := workerFeats_stamp_const raw c₁ c₂ hraw
    have hbs : buildStats (stampRecords (fun _ => c₁) 0 raw)
        = buildStats (stampRecords (fun _ => c₂) 0 raw) := by
      rw [buildStats_stamp, buildStats_stamp]
    have htp : totalPackets (stampRecords (fun _ => c₁) 0 raw)
        = totalPackets (stampRecords (fun _ => c₂) 0 raw) := by
      rw [totalPackets_stamp, totalPackets_stamp]
    have hl : (stampRecords (fun _ => c₁) 0 raw).length
        = (stampRecords (fun _ => c₂) 0 raw).length := by
      rw [stampRecords_length, stampRecords_length]
    have hhot : workerHot (stampRecords (fun _ => c₁) 0 raw)
        = workerHot (stampRecords (fun _ => c₂) 0 raw) := by
      rw [workerHot, workerHot, hbs, htp]
    simp [hfe, hbs, htp, hl, hhot]

/-! ### Entropy bounds: list arithmetic helpers -/

lemma map_congr_mem {α β : Type} (l : List α) (f g : α → β)
    (h : ∀ a ∈ l, f a = g a) : l.map f = l.map g := by
  induction l with
  | nil => rfl
  | cons a l ih =>
    rw [List.map_cons, List.map_cons, h a (List.mem_cons_self _ _),
      ih (fun x hx => h x (List.mem_cons_of_mem _ hx))]

lemma sum_map_div {α : Type} (l : List α) (f : α → ℝ) (c : ℝ) :
    (l.map (fun x => f x / c)).sum = (l.map f).sum / c := by
  induction l with
  | nil => simp
  | cons a l ih => simp [ih, add_div]

lemma sum_map_sub_const (ps : List ℝ) (c : ℝ) :
    (ps.map (fun p => c - p)).sum = ps.length * c - ps.sum := by
  induction ps with
  | nil => simp
  | cons p ps ih =>
    simp only [List.map_cons, List.sum_cons, List.length_cons, ih]
    push_cast
    ring

lemma sum_split_logs (ps : List ℝ) (a b : ℝ) :
    (ps.map (fun p => p * a - p * b - p * Real.log p)).sum
      = ps.sum * a - ps.sum * b + (ps.map (fun p => -(p * Real.log p))).sum := by
  induction ps with
  | nil => simp
  | cons p ps ih =>
    simp only [List.map_cons, List.sum_cons, ih]
    ring

/-- The core analytic fact behind the entropy upper bound: for positive
reals summing to at most 1, with either exact normalisation or at least
three terms, the natural-log entropy is at most `log n`. -/
lemma list_negMulLog_sum_le (ps : List ℝ) (hpos : ∀ p ∈ ps, 0 < p)
    (hs1 : ps.sum ≤ 1) (hor : ps.sum = 1 ∨ 3 ≤ ps.length) (hne : ps ≠ []) :
    (ps.map fun p => -(p * Real.log p)).sum ≤ Real.log (ps.length : ℝ) := by
  have hs0 : 0 < ps.sum := List.sum_pos ps hpos hne
  have hnR : (0 : ℝ) < (ps.length : ℝ) := by
    exact_mod_cast List.length_pos.mpr hne
  have hterm : ∀ p ∈ ps,
      p * Real.log ps.sum - p * Real.log (ps.length : ℝ) - p * Real.log p
        ≤ ps.sum / (ps.length : ℝ) - p := by
    intro p hp
    have hp0 : 0 < p := hpos p hp
    have h1 : p * Real.log ps.sum - p * Real.log (ps.length : ℝ) - p * Real.log p
        = p * Real.log (ps.sum / ((ps.length : ℝ) * p)) := by
      rw [Real.log_div (ne_of_gt hs0) (by positivity),
        Real.log_mul (ne_of_gt hnR) (ne_of_gt hp0)]
      ring
    have h2 : Real.log (ps.sum / ((ps.length : ℝ) * p))
        ≤ ps.sum / ((ps.length : ℝ) * p) - 1 :=
      Real.log_le_sub_one_of_pos (by positivity)
    have h3 : p * Real.log (ps.sum / ((ps.length : ℝ) * p))
        ≤ p * (ps.sum / ((ps.length : ℝ) * p) - 1) :=
      mul_le_mul_of_nonneg_left h2 (le_of_lt hp0)
    have h4 : p * (ps.sum / ((ps.length : ℝ) * p) - 1)
        = ps.sum / (ps.length : ℝ) - p := by
      field_simp
      ring
    rw [h1]
    rw [h4] at h3
    exact h3
  have hA := List.sum_le_sum hterm
  have hB : (ps.map (fun p => ps.sum / (ps.length : ℝ) - p)).sum = 0 := by
    rw [sum_map_sub_const]
    field_simp
  have hC := sum_split_logs ps (Real.log ps.sum) (Real.log (ps.length : ℝ))
  have hL : (ps.map fun p => -(p * Real.log p)).sum
      ≤ ps.sum * Real.log (ps.length : ℝ) - ps.sum * Real.log ps.sum := by
    rw [hC, hB] at hA
    linarith
  rcases hor with h | h
  · rw [h] at hL
    simpa using hL
  · have hlog1 : 1 ≤ Real.log (ps.length : ℝ) := by
      have h3n : (3 : ℝ) ≤ (ps.length : ℝ) := by exact_mod_cast h
      have he3 : Real.exp 1 ≤ 3 := le_of_lt (lt_trans Real.exp_one_lt_d9 (by norm_num))
      calc (1 : ℝ) = Real.log (Real.exp 1) := (Real.log_exp 1).symm
        _ ≤ Real.log (ps.length : ℝ) :=
          Real.log_le_log (Real.exp_pos 1) (le_trans he3 h3n)
    have hneg : -(ps.sum * Real.log ps.sum) ≤ 1 - ps.sum := by
      have hinv : Real.log (ps.sum)⁻¹ ≤ (ps.sum)⁻¹ - 1 :=
        Real.log_le_sub_one_of_pos (by positivity)
      have hmul := mul_le_mul_of_nonneg_left hinv (le_of_lt hs0)
      rw [Real.log_inv] at hmul
      have hss : ps.sum * (ps.sum)⁻¹ = 1 := mul_inv_cancel₀ (ne_of_gt hs0)
      nlinarith
    nlinarith [mul_nonneg (sub_nonneg.mpr hs1) (sub_nonneg.mpr hlog1)]

/-! ### Entropy bounds: connecting to the embedded extractor -/

lemma sumPackets_cast (s : List IpStat) :
    ((sumPackets s : Int) : ℝ) = (s.map (fun e => (e.packet_count : ℝ))).sum := by
  induction s with
  | nil => simp [sumPackets]
  | cons e rest ih =>
    simp only [sumPackets, List.map_cons, List.sum_cons] at ih ⊢
    push_cast
    rw [List.map_map]
    rfl

lemma entropyOf_eq_div (stats : List IpStat) (total : Int)
    (hcnt : ∀ e ∈ stats, 1 ≤ e.packet_count) (htot : 0 < total) :
    entropyOf stats total =
      ((stats.map (fun e => (e.packet_count : ℝ) / (total : ℝ))).map
        (fun p => -(p * Real.log p))).sum / Real.log 2 := by
  rw [entropyOf,
    map_congr_mem stats (entropyTerm total)
      (fun e => -(((e.packet_count : ℝ) / (total : ℝ))
        * Real.log ((e.packet_count : ℝ) / (total : ℝ))) / Real.log 2)
      (fun e he => by
        have hp : 0 < (e.packet_count : ℝ) / (total : ℝ) :=
          div_pos (by exact_mod_cast hcnt e he) (by exact_mod_cast htot)
        simp only [entropyTerm]
        rw [if_pos hp, Real.logb]
        ring)]
  rw [sum_map_div, List.map_map]
  rfl

lemma entropyOf_le_logb (stats : List IpStat) (total : Int)
    (hcnt : ∀ e ∈ stats, 1 ≤ e.packet_count) (htot : 0 < total)
    (hsum : sumPackets stats ≤ total)
    (hor : sumPackets stats = total ∨ 3 ≤ stats.length)
    (hne : stats ≠ []) :
    entropyOf stats total ≤ Real.logb 2 (stats.length : ℝ) := by
  have hps_pos : ∀ p ∈ stats.map (fun e => (e.packet_count : ℝ) / (total : ℝ)), 0 < p := by
    intro p hp
    obtain ⟨e, he, rfl⟩ := List.mem_map.mp hp
    exact div_pos (by exact_mod_cast hcnt e he) (by exact_mod_cast htot)
  have htotR : (0 : ℝ) < (total : ℝ) := by exact_mod_cast htot
  have hsum_eq : (stats.map (fun e => (e.packet_count : ℝ) / (total : ℝ))).sum
      = ((sumPackets stats : Int) : ℝ) / (total : ℝ) := by
    rw [sum_map_div, ← sumPackets_cast]
  have hps_le1 : (stats.map (fun e => (e.packet_count : ℝ) / (total : ℝ))).sum ≤ 1 := by
    rw [hsum_eq]
    exact (div_le_one htotR).mpr (by exact_mod_cast hsum)
  have hps_or : (stats.map (fun e => (e.packet_count : ℝ) / (total : ℝ))).sum = 1
      ∨ 3 ≤ (stats.map (fun e => (e.packet_count : ℝ) / (total : ℝ))).length := by
    rcases hor with h | h
    · left
      rw [hsum_eq, h]
      exact div_self (ne_of_gt htotR)
    · right
      rw [List.length_map]
      exact h
  have hps_ne : stats.map (fun e => (e.packet_count : ℝ) / (total : ℝ)) ≠ [] := by
    simp [hne]
  have hkey := list_negMulLog_sum_le _ hps_pos hps_le1 hps_or hps_ne
  rw [List.length_map] at hkey
  rw [entropyOf_eq_div stats total hcnt htot, Real.logb]
  have hlog2 : 0 < Real.log 2 := Real.log_pos (by norm_num)
  exact (div_le_div_iff_of_pos_right hlog2).mpr hkey

lemma entropyTerm_nonneg (total : Int) (e : IpStat) (htot : 0 < total)
    (hle : (e.packet_count : ℝ) ≤ (total : ℝ)) :
    0 ≤ entropyTerm total e := by
  simp only [entropyTerm]
  split
  · next hp =>
    have hp1 : (e.packet_count : ℝ) / (total : ℝ) ≤ 1 :=
      (div_le_one (by exact_mod_cast htot)).mpr hle
    have hlogp := Real.logb_nonpos (show (1 : ℝ) < 2 by norm_num) (le_of_lt hp) hp1
    nlinarith
  · exact le_refl 0

lemma entropyOf_nonneg (stats : List IpStat) (total : Int)
    (hcnt : ∀ e ∈ stats, 1 ≤ e.packet_count) (htot : 0 < total)
    (hsum : sumPackets stats ≤ total) :
    0 ≤ entropyOf stats total := by
  apply List.sum_nonneg
  intro x hx
  obtain ⟨e, he, rfl⟩ := List.mem_map.mp hx
  apply entropyTerm_nonneg total e htot
  have h1 := mem_le_sumPackets stats
    (fun e' he' => le_trans zero_le_one (hcnt e' he')) e he
  exact_mod_cast le_trans h1 hsum

lemma entropyTerm_pos (total : Int) (e : IpStat) (htot : 0 < total)
    (h1 : 1 ≤ e.packet_count) (h2 : e.packet_count < total) :
    0 < entropyTerm total e := by
  have hp : 0 < (e.packet_count : ℝ) / (total : ℝ) :=
    div_pos (by exact_mod_cast h1) (by exact_mod_cast htot)
  have hp1 : (e.packet_count : ℝ) / (total : ℝ) < 1 :=
    (div_lt_one (by exact_mod_cast htot)).mpr (by exact_mod_cast h2)
  simp only [entropyTerm]
  rw [if_pos hp]
  have := Real.logb_neg (show (1 : ℝ) < 2 by norm_num) hp hp1
  nlinarith

lemma entropyOf_pos_of_two (stats : List IpStat) (total : Int)
    (hcnt : ∀ e ∈ stats, 1 ≤ e.packet_count) (htot : 0 < total)
    (hsum : sumPackets stats ≤ total) (hlen : 2 ≤ stats.length) :
    0 < entropyOf stats total := by
  match stats, hlen with
  | a :: b :: t, _ =>
    have ha1 : 1 ≤ a.packet_count := hcnt a (List.mem_cons_self _ _)
    have hrest1 : ((b :: t).length : Int) ≤ sumPackets (b :: t) :=
      length_le_sumPackets _ (fun e he => hcnt e (List.mem_cons_of_mem _ he))
    have hsum_cons : sumPackets (a :: b :: t) = a.packet_count + sumPackets (b :: t) := by
      simp [sumPackets]
    have hrest_pos : (1 : Int) ≤ sumPackets (b :: t) := by
      have : (1 : Int) ≤ ((b :: t).length : Int) := by
        simp only [List.length_cons]
        push_cast
        omega
      linarith
    have ha_lt : a.packet_count < total := by linarith
    have hterm := entropyTerm_pos total a htot ha1 ha_lt
    have hrest_nonneg : 0 ≤ ((b :: t).map (entropyTerm total)).sum := by
      apply List.sum_nonneg
      intro x hx
      obtain ⟨e, he, rfl⟩ := List.mem_map.mp hx
      apply entropyTerm_nonneg total e htot
      have h1 := mem_le_sumPackets (a :: b :: t)
        (fun e' he' => le_trans zero_le_one (hcnt e' he')) e (List.mem_cons_of_mem _ he)
      exact_mod_cast le_trans h1 hsum
    rw [entropyOf, List.map_cons, List.sum_cons]
    have : ((b :: t).map (entropyTerm total)).sum
        = (List.map (entropyTerm total) (b :: t)).sum := rfl
    linarith

lemma entropyOf_single (e : IpStat) (total : Int) (htot : 0 < total)
    (heq : e.packet_count = total) :
    entropyOf [e] total = 0 := by
  rw [entropyOf, List.map_cons, List.map_nil, List.sum_cons, List.sum_nil]
  simp only [entropyTerm, heq]
  have hone : ((total : Int) : ℝ) / ((total : Int) : ℝ) = 1 :=
    div_self (by exact_mod_cast ne_of_gt htot)
  rw [hone, if_pos one_pos, Real.logb_one]
  ring

/-! ### Entropy bounds: distinct-source-count facts -/

lemma src_mem_foldl (l : List FlowRecord) :
    ∀ s : List IpStat, (l.foldl addRecord s).length < MAX_UNIQUE_IPS →
      ∀ r ∈ l, r.src_ip ∈ ips (l.foldl addRecord s) := by
  induction l with
  | nil => intro s _ r hr; cases hr
  | cons r0 l' ih =>
    intro s hfin x hx
    rw [List.foldl_cons] at hfin ⊢
    rcases List.mem_cons.mp hx with rfl | hx'
    · have h1 := length_foldl_ge l' (addRecord s x)
      have h2 := length_addRecord_ge s x
      have hs : s.length < MAX_UNIQUE_IPS := by omega
      exact mem_ips_foldl l' _ _ (src_mem_ips_addRecord s x hs)
    · exact ih (addRecord s r0) hfin x hx'

lemma distinct_card_one (l : List FlowRecord) (hne : l ≠ [])
    (h1 : (buildStats l).length = 1) :
    (l.map (fun r => r.src_ip)).toFinset.card = 1 := by
  have hlt : (buildStats l).length < MAX_UNIQUE_IPS := by
    rw [h1, MAX_UNIQUE_IPS]
    omega
  have hsub : (l.map (fun r => r.src_ip)).toFinset ⊆ (ips (buildStats l)).toFinset := by
    intro x hx
    rw [List.mem_toFinset] at hx ⊢
    obtain ⟨r, hr, rfl⟩ := List.mem_map.mp hx
    exact src_mem_foldl l [] hlt r hr
  have hle := Finset.card_le_card hsub
  have hcard2 : (ips (buildStats l)).toFinset.card ≤ 1 := by
    calc (ips (buildStats l)).toFinset.card ≤ (ips (buildStats l)).length :=
          (ips (buildStats l)).toFinset_card_le
      _ = (buildStats l).length := by simp [ips]
      _ = 1 := h1
  have hpos : 0 < (l.map (fun r => r.src_ip)).toFinset.card := by
    rw [Finset.card_pos]
    obtain ⟨r, l', rfl⟩ := List.exists_cons_of_ne_nil hne
    exact ⟨r.src_ip, by simp⟩
  omega

lemma ips_foldl_found (l : List FlowRecord) :
    ∀ s : List IpStat, (∀ x ∈ l, x.src_ip ∈ ips s) →
      ips (l.foldl addRecord s) = ips s := by
  induction l with
  | nil => intro s _; rfl
  | cons r l' ih =>
    intro s h
    rw [List.foldl_cons]
    have hstep : ips (addRecord s r) = ips s :=
      (insertIp_found s.length s r (h r (List.mem_cons_self _ _))).1
    rw [ih (addRecord s r)
      (fun x hx => by rw [hstep]; exact h x (List.mem_cons_of_mem _ hx)), hstep]

lemma buildStats_len_one_of_same (r0 : FlowRecord) (l' : List FlowRecord)
    (hsame : ∀ x ∈ r0 :: l', x.src_ip = r0.src_ip) :
    (buildStats (r0 :: l')).length = 1 := by
  rw [buildStats, List.foldl_cons]
  have h0 : addRecord [] r0 = [newStat r0] := by
    rw [addRecord, insertIp]
    simp [MAX_UNIQUE_IPS]
  rw [h0]
  have hip : ips (l'.foldl addRecord [newStat r0]) = ips [newStat r0] :=
    ips_foldl_found l' _ (fun x hx => by
      rw [hsame x (List.mem_cons_of_mem _ hx)]
      simp [ips, newStat])
  have hlen : (l'.foldl addRecord [newStat r0]).length
      = (ips (l'.foldl addRecord [newStat r0])).length := by
    simp [ips]
  rw [hlen, hip]
  rfl

/-! ### Claim C6 -/

/-- C6: for every non-empty shard (with the data-model invariant
`packets ≥ 1` on its records), the computed entropy satisfies
`0 ≤ entropy ≤ log2(unique_ips)`, and entropy is zero exactly when the
shard has a single distinct source IP.  The bound holds even when the
IP table overflows: dropped IPs only shrink the tracked probability
mass, and a full table has 4096 ≥ 3 entries. -/
theorem C6_entropy_bounds (records : List FlowRecord) (hne : records ≠ [])
    (hpk : ∀ r ∈ records, 1 ≤ r.packets) :
    0 ≤ (workerFeats records).entropy
    ∧ (workerFeats records).entropy
        ≤ Real.logb 2 ((workerFeats records).unique_ips : ℝ)
    ∧ ((workerFeats records).entropy = 0 ↔
        (records.map (fun r => r.src_ip)).toFinset.card = 1) := by
  have hlenpos : 1 ≤ records.length := List.length_pos.mpr hne
  have htot : 0 < totalPackets records := by
    have h1 := length_le_totalPackets records hpk
    have h2 : (1 : Int) ≤ (records.length : Int) := by exact_mod_cast hlenpos
    linarith
  have hstats_pos := buildStats_length_pos records hne
  have hguard : ¬ (totalPackets records ≤ 0 ∨ (buildStats records).length = 0
      ∨ records.length = 0) := by
    push_neg
    exact ⟨by linarith, by omega, by omega⟩
  have hent : (workerFeats records).entropy
      = entropyOf (buildStats records) (totalPackets records) := by
    rw [workerFeats, computeFeatures, if_neg hguard]
  have huni : (workerFeats records).unique_ips = ((buildStats records).length : Int) := by
    rw [workerFeats, computeFeatures, if_neg hguard]
  have hcnt : ∀ e ∈ buildStats records, 1 ≤ e.packet_count :=
    entries_pos_foldl records [] hpk (by intro e he; cases he)
  have hsum_le : sumPackets (buildStats records) ≤ totalPackets records := by
    have h := sumPackets_foldl_le records []
      (fun r hr => le_trans zero_le_one (hpk r hr))
    simpa [buildStats, sumPackets] using h
  have hor : sumPackets (buildStats records) = totalPackets records
      ∨ 3 ≤ (buildStats records).length := by
    rcases conservation_or_full records [] (by simp [MAX_UNIQUE_IPS]) with ⟨h, _⟩ | h
    · left
      simpa [buildStats, sumPackets] using h
    · right
      have hmax : (buildStats records).length = MAX_UNIQUE_IPS := h
      rw [hmax, MAX_UNIQUE_IPS]
      omega
  have hbne : buildStats records ≠ [] := by
    intro h
    rw [h] at hstats_pos
    simp at hstats_pos
  refine ⟨?_, ?_, ?_⟩
  · rw [hent]
    exact entropyOf_nonneg _ _ hcnt htot hsum_le
  · rw [hent, huni]
    have hub := entropyOf_le_logb (buildStats records) (totalPackets records)
      hcnt htot hsum_le hor hbne
    rwa [show ((((buildStats records).length : Int)) : ℝ)
      = ((buildStats records).length : ℝ) from by push_cast; ring]
  · rw [hent]
    constructor
    · intro h0
      by_cases hlen2 : 2 ≤ (buildStats records).length
      · exfalso
        have := entropyOf_pos_of_two _ _ hcnt htot hsum_le hlen2
        linarith
      · have h1 : (buildStats records).length = 1 := by omega
        exact distinct_card_one records hne h1
    · intro hcard
      obtain ⟨r0, l', rfl⟩ := List.exists_cons_of_ne_nil hne
      have hsame : ∀ x ∈ r0 :: l', x.src_ip = r0.src_ip := by
        obtain ⟨a, ha⟩ := Finset.card_eq_one.mp hcard
        intro x hx
        have hx' : x.src_ip ∈ ((r0 :: l').map (fun r => r.src_ip)).toFinset := by
          rw [List.mem_toFinset]
          exact List.mem_map_of_mem _ hx
        have hr0 : r0.src_ip ∈ ((r0 :: l').map (fun r => r.src_ip)).toFinset := by
          rw [List.mem_toFinset]
          exact List.mem_map_of_mem _ (List.mem_cons_self _ _)
        rw [ha, Finset.mem_singleton] at hx' hr0
        rw [hx', hr0]
      have h1 := buildStats_len_one_of_same r0 l' hsame
      obtain ⟨e, he⟩ := List.length_eq_one.mp h1
      have hsum_eq : sumPackets (buildStats (r0 :: l')) = totalPackets (r0 :: l') := by
        rcases hor with h | h
        · exact h
        · rw [h1] at h
          omega
      rw [he] at hsum_eq ⊢
      have hcnt_eq : e.packet_count = totalPackets (r0 :: l') := by
        simpa [sumPackets] using hsum_eq
      exact entropyOf_single e _ htot hcnt_eq

/-- Witness for C6 at a concrete one-record shard: entropy 0, one
distinct source. -/
theorem C6_entropy_bounds_witness :
    ([wideRecord 0] ≠ [] ∧ ∀ r ∈ [wideRecord 0], 1 ≤ r.packets)
    ∧ (0 ≤ (workerFeats [wideRecord 0]).entropy
      ∧ (workerFeats [wideRecord 0]).entropy
          ≤ Real.logb 2 ((workerFeats [wideRecord 0]).unique_ips : ℝ)
      ∧ ((workerFeats [wideRecord 0]).entropy = 0 ↔
          ([wideRecord 0].map (fun r => r.src_ip)).toFinset.card = 1)) :=
  ⟨⟨by decide, by decide⟩,
    C6_entropy_bounds [wideRecord 0] (by decide) (by decide)⟩

end DDoSDetect
